import Mathlib

/-!
Verification of the data-synchronization and cache engine of the
commit-analyser repository. Each component of the TypeScript source is
shallowly embedded as executable Lean definitions (association lists model
JS `Record`/`Map` objects, an explicit `now` parameter models `Date.now()`,
explicit state passing models in-place mutation, and `Except` models
thrown exceptions). Theorems about the embedding settle the specification
claims.
-/

namespace CommitAnalyser

/-! ## Association-list helpers

JavaScript `Record<string, T>` objects and `Map`s are modelled as
insertion-ordered association lists. `setA` models `obj[k] = v` / `Map.set`
(replace in place if the key exists, else append at the end, matching JS
property insertion order); `eraseA` models `delete obj[k]`; `lookupA`
models `obj[k]`; `updA` models the common idiom
`if (!obj[k]) obj[k] = default; obj[k] = f(obj[k])`. -/

def lookupA {β : Type} : List (String × β) → String → Option β
  | [], _ => none
  | (k', v) :: t, k => if k' = k then some v else lookupA t k

def setA {β : Type} : List (String × β) → String → β → List (String × β)
  | [], k, v => [(k, v)]
  | (k', v') :: t, k, v =>
      if k' = k then (k', v) :: t else (k', v') :: setA t k v

def eraseA {β : Type} : List (String × β) → String → List (String × β)
  | [], _ => []
  | (k', v') :: t, k => if k' = k then t else (k', v') :: eraseA t k

def updA {β : Type} (l : List (String × β)) (k : String) (d : β) (f : β → β) :
    List (String × β) :=
  setA l k (f ((lookupA l k).getD d))

def keysA {β : Type} (l : List (String × β)) : List String := l.map Prod.fst

/-- Structural helper for `dedupFirst`: `seen` holds the already-emitted
elements. -/
def dedupFirstAux : List String → List String → List String
  | _, [] => []
  | seen, x :: xs =>
      if x ∈ seen then dedupFirstAux seen xs
      else x :: dedupFirstAux (x :: seen) xs

/-- Models `[...new Set(l)]`: deduplicate keeping the first occurrence of each
element, preserving order (JS `Set` iteration order). -/
def dedupFirst (l : List String) : List String := dedupFirstAux [] l

/-! ## CacheStore (src/src/cache.ts)

The browser-side cache: three categories of keyed entries with a shared
TTL and a 50MB size ceiling. Time (`Date.now()`) is an explicit `now : Nat`
parameter (milliseconds); all `Date.now()` calls inside one synchronous
operation are modelled as the same instant. The serialized byte size
computed by `new Blob([JSON.stringify(cache)]).size` is
environment-dependent, so it is modelled as an arbitrary size function
`sz : Store α → Nat` passed to the operations. `localStorage` holds the
same data as the in-memory object (`loadCache` re-reads it at the start of
every operation and `saveCache` writes it back), so a single `Store` value
models the durable state; `loadCache`'s trim runs on the in-memory copy
and is persisted only when `saveCache` follows. -/

structure CacheEntry (α : Type) where
  timestamp : Nat
  data : α
  expiresAt : Nat
  source : String
  deriving DecidableEq

inductive CacheType where
  | repositories
  | branches
  | commits
  deriving DecidableEq

structure Store (α : Type) where
  repositories : List (String × CacheEntry α)
  branches : List (String × CacheEntry α)
  commits : List (String × CacheEntry α)
  deriving DecidableEq

def CACHE_TTL : Nat := 1000 * 60 * 60

def MAX_CACHE_SIZE : Nat := 50 * 1024 * 1024

def emptyStore {α : Type} : Store α := ⟨[], [], []⟩

def getCat {α : Type} (c : Store α) : CacheType → List (String × CacheEntry α)
  | .repositories => c.repositories
  | .branches => c.branches
  | .commits => c.commits

def putCat {α : Type} (c : Store α) :
    CacheType → List (String × CacheEntry α) → Store α
  | .repositories, l => { c with repositories := l }
  | .branches, l => { c with branches := l }
  | .commits, l => { c with commits := l }

def lookupCat {α : Type} (c : Store α) (ty : CacheType) (k : String) :
    Option (CacheEntry α) :=
  lookupA (getCat c ty) k

def setCat {α : Type} (c : Store α) (ty : CacheType) (k : String)
    (e : CacheEntry α) : Store α :=
  putCat c ty (setA (getCat c ty) k e)

def eraseCat {α : Type} (c : Store α) (ty : CacheType) (k : String) : Store α :=
  putCat c ty (eraseA (getCat c ty) k)

/-- All entries of the store, tagged with their category, in the iteration
order of `Object.keys(cache)` (`repositories`, `branches`, `commits`). -/
def entriesOf {α : Type} (c : Store α) :
    List (CacheType × String × CacheEntry α) :=
  c.repositories.map (fun p => (CacheType.repositories, p))
    ++ c.branches.map (fun p => (CacheType.branches, p))
    ++ c.commits.map (fun p => (CacheType.commits, p))

def entryCount {α : Type} (c : Store α) : Nat := (entriesOf c).length

/-- The scan inside `trimCache`'s while-loop: `oldestTimestamp` starts at
`Date.now()` and an entry is selected only if its timestamp is strictly
smaller than the current best, so the result (if any) is a globally-oldest
entry and its timestamp is strictly below `now`. -/
def findOldest {α : Type} (now : Nat) (c : Store α) :
    Option (CacheType × String) :=
  ((entriesOf c).foldl
    (fun acc e =>
      if e.2.2.timestamp < acc.1 then (e.2.2.timestamp, some (e.1, e.2.1))
      else acc)
    ((now, none) : Nat × Option (CacheType × String))).2

/-- One check of `if (oldestType && oldestKey)`: the selected key `''` is
falsy in JS, so a selected empty-string key also stops the loop. -/
def trimAux {α : Type} (sz : Store α → Nat) (now : Nat) :
    Nat → Store α → Store α
  | 0, c => c
  | fuel + 1, c =>
      if sz c ≤ MAX_CACHE_SIZE then c
      else
        match findOldest now c with
        | none => c
        | some (ty, k) =>
            if k = "" then c else trimAux sz now fuel (eraseCat c ty k)

/-- Models `trimCache`: while the serialized size exceeds the ceiling, remove the
globally-oldest entry. Each loop iteration removes one entry (or stops),
so `entryCount c` iterations always suffice as fuel. -/
def trimCache {α : Type} (sz : Store α → Nat) (now : Nat) (c : Store α) :
    Store α :=
  trimAux sz now (entryCount c) c

/-- Models `getFromCache`: `loadCache()` re-reads (and trims) the durable copy,
the entry is served while `now ≤ expiresAt`, and an expired entry is
deleted and the store persisted (`saveCache`, which trims again) before
returning the miss. The returned store is the durable state afterwards;
a plain hit or miss does not call `saveCache`, so it leaves the durable
state unchanged. -/
def getFromCache {α : Type} (sz : Store α → Nat) (now : Nat) (ty : CacheType)
    (k : String) (c : Store α) : Option α × Store α :=
  let m := trimCache sz now c
  match lookupCat m ty k with
  | none => (none, c)
  | some e =>
      if now > e.expiresAt then (none, trimCache sz now (eraseCat m ty k))
      else (some e.data, c)

/-- Models `saveToCache`: `loadCache()`, then overwrite the entry with
`timestamp = now`, `expiresAt = now + CACHE_TTL`, `source = 'API'`, then
`saveCache()` (which trims before persisting). -/
def saveToCache {α : Type} (sz : Store α → Nat) (now : Nat) (ty : CacheType)
    (k : String) (v : α) (c : Store α) : Store α :=
  let m := trimCache sz now c
  trimCache sz now (setCat m ty k ⟨now, v, now + CACHE_TTL, "API"⟩)

/-- The trim loop is stuck: no entry is selectable (every remaining entry
has `timestamp ≥ now`, the store is empty, or the selected key is `''`). -/
def trimStuck {α : Type} (now : Nat) (c : Store α) : Prop :=
  match findOldest now c with
  | none => True
  | some (_, k) => k = ""

/-! ## PagedFetcher, simple variant (src/src/api.ts lines 15-68)

The upstream is a function from page number (1-based) to the request's
outcome: `.ok data` for a resolved response, `.error e` for a rejected
promise. `silentFetch` resolves any rejection to `[]`, and destructuring
`{ data = [] }` from that `[]` also yields `[]`, so a failed request is
indistinguishable from an empty page inside the loop. -/

def silentFetch {E α : Type} : Except E (List α) → List α
  | .ok l => l
  | .error _ => []

/-- The `while (true)` loop of the simple `fetchAllPages`: stop on the
first empty (or failed) page, or once `page > 10` after a non-empty page.
The page counter increases on every recursive call and recursion happens
only while `page + 1 ≤ 10`, so fuel `10` (from page 1) is never
exhausted. Returns the collected items and the number of requests
issued. -/
def fetchGo {α : Type} (pages : Nat → List α) :
    Nat → Nat → List α → Nat → List α × Nat
  | 0, _, acc, reqs => (acc, reqs)
  | fuel + 1, page, acc, reqs =>
      let data := pages page
      if data.isEmpty then (acc, reqs + 1)
      else
        let acc := acc ++ data
        if page + 1 > 10 then (acc, reqs + 1)
        else fetchGo pages fuel (page + 1) acc (reqs + 1)

def fetchAllPagesSimple {E α : Type} (pages : Nat → Except E (List α)) :
    List α × Nat :=
  fetchGo (fun p => silentFetch (pages p)) 10 1 [] 0

structure Repository where
  id : Nat
  name : String
  full_name : String
  deriving DecidableEq

/-- Models `fetchOrgRepos` (simple variant): cache key from org and token
presence, look-aside read, fetch all pages on a miss, save, return. -/
def fetchOrgReposSimple {E : Type} (sz : Store (List Repository) → Nat)
    (now : Nat) (org : String) (auth : Bool)
    (pages : Nat → Except E (List Repository))
    (c : Store (List Repository)) : List Repository × Store (List Repository) :=
  let cacheKey := "org_" ++ org ++ "_" ++ (if auth then "auth" else "noauth")
  match getFromCache sz now CacheType.repositories cacheKey c with
  | (some repos, c') => (repos, c')
  | (none, c') =>
      let repos := (fetchAllPagesSimple pages).1
      (repos, saveToCache sz now CacheType.repositories cacheKey repos c')

/-! ## PagedFetcher, MAX_EMPTY_PAGES variant (src/src/api.ts lines 191-234)

This variant tolerates empty-but-not-final pages: an empty page increments
a consecutive-empty counter (terminating at 3) instead of stopping, the
page counter advances on every iteration, a 403 failure stops pagination
silently, and any other failure is rethrown. -/

inductive Resp2 (α : Type) where
  | ok (data : List α)
  | fail (isAxios : Bool) (status : Option Nat)
  deriving DecidableEq

def fetchGo2 {α : Type} (pages : Nat → Resp2 α) :
    Nat → Nat → Nat → List α → Nat →
    Except (Bool × Option Nat) (List α) × Nat
  | 0, _, _, acc, reqs => (.ok acc, reqs)
  | fuel + 1, page, consecEmpty, acc, reqs =>
      match pages page with
      | .fail isAxios status =>
          if isAxios && status == some 403 then (.ok acc, reqs + 1)
          else (.error (isAxios, status), reqs + 1)
      | .ok data =>
          if data.isEmpty then
            let consecEmpty := consecEmpty + 1
            if 3 ≤ consecEmpty then (.ok acc, reqs + 1)
            else if page + 1 > 10 then (.ok acc, reqs + 1)
            else fetchGo2 pages fuel (page + 1) consecEmpty acc (reqs + 1)
          else
            if page + 1 > 10 then (.ok (acc ++ data), reqs + 1)
            else fetchGo2 pages fuel (page + 1) 0 (acc ++ data) (reqs + 1)

def fetchAllPagesMulti {α : Type} (pages : Nat → Resp2 α) :
    Except (Bool × Option Nat) (List α) × Nat :=
  fetchGo2 pages 10 1 0 [] 0

/-- Concatenation of the silenced pages `base, base+1, ..., base+n-1`. -/
def joinPages {α : Type} (pages : Nat → List α) (base n : Nat) : List α :=
  (List.range n).flatMap fun j => pages (base + j)

/-- The items of a variant-2 response (`[]` for a failure). -/
def resp2Data {α : Type} : Resp2 α → List α
  | .ok l => l
  | .fail _ _ => []

/-- Models `handleApiError` (src/src/api.ts lines 177-189): translate a failed
request into a typed, human-readable error message carrying the resource
context string. -/
def handleApiError (isAxios : Bool) (status : Option Nat) (context : String) :
    String :=
  if isAxios then
    if status == some 404 then context ++ " not found"
    else if status == some 403 then
      "Rate limit exceeded for " ++ context ++
        ". Please try again later or use a GitHub token"
    else if status == some 401 then "Invalid GitHub token for " ++ context
    else "Failed to fetch " ++ context
  else "Failed to fetch " ++ context

/-! ## PagedFetcher with rate-limit/retry discipline (src/src/server.ts lines 642-740)

The loop is modelled as a step machine over an explicit state. Virtual
time (`now`, in ms) advances only through `delay(ms)`; requests are
instantaneous, so "the next request is issued at time t" means the state's
`now` is `t` when the request is made. The upstream is a function from the
global request index to that request's outcome. Header parsing:
`parseInt(headers['x-ratelimit-remaining'] || '0')` makes a missing header
read as `0`, so `remaining : Nat` directly; `resetTime` is the header
value already multiplied by 1000 (ms). For a failed request,
`remainingZero` models `headers['x-ratelimit-remaining'] === '0'` and
`resetTime : Option Nat` the presence and ms value of
`headers['x-ratelimit-reset']`. -/

inductive PageOutcome (α : Type) where
  | success (data : List α) (hasNext : Bool) (remaining : Nat)
      (resetTime : Nat) (status : Nat)
  | failure (isAxios : Bool) (status : Option Nat) (remainingZero : Bool)
      (resetTime : Option Nat)
  deriving DecidableEq

structure FetchState (α : Type) where
  page : Nat
  allData : List α
  hasMore : Bool
  retryCount : Nat
  now : Nat
  reqIdx : Nat
  deriving DecidableEq

/-- What the loop body throws: either the caught request error is
rethrown (`throw error`), or the in-`try` `throw new Error(...)` for a
5xx/530 response status fires (a non-Axios error, so the `catch` block's
`isAxiosError` guard rethrows it unchanged). -/
inductive FetchErr (α : Type) where
  | fromResponse (o : PageOutcome α)
  | serverStatus (status : Nat)
  deriving DecidableEq

def maxRetries : Nat := 3

def baseDelay : Nat := 1000

def is5xx : Option Nat → Bool
  | some s => s == 530 || decide (500 ≤ s)
  | none => false

/-- The body of one `while (hasMorePages)` iteration after the response
for the current page arrived (the state already has `reqIdx` advanced
past this request). `Except.error` models an exception escaping the
loop. -/
def processOutcome {α : Type} (s : FetchState α) :
    PageOutcome α → Except (FetchErr α) (FetchState α)
  | .success data hasNext remaining resetTime status =>
      if status == 530 || decide (500 ≤ status) then
        .error (.serverStatus status)
      else
        let s := if data.isEmpty then { s with hasMore := false }
          else { s with allData := s.allData ++ data, page := s.page + 1 }
        let s := if hasNext then s else { s with hasMore := false }
        let s := { s with retryCount := 0 }
        let s := if remaining ≤ 1 && decide (s.now < resetTime) then
            { s with now := resetTime }
          else s
        .ok s
  | .failure isAxios status remainingZero resetTime =>
      if isAxios && status == some 403 && remainingZero &&
          (match resetTime with
           | some t => decide (s.now < t)
           | none => false) then
        .ok { s with now := resetTime.getD s.now }
      else if isAxios && is5xx status && decide (s.retryCount < maxRetries) then
        .ok { s with
          retryCount := s.retryCount + 1,
          now := s.now + baseDelay * 2 ^ s.retryCount }
      else .error (.fromResponse (.failure isAxios status remainingZero resetTime))

/-- One request event of the run's trace: the virtual time and page number
at which the request was issued, the retry counter at that moment, and the
outcome the upstream returned. -/
structure ReqEvent (α : Type) where
  time : Nat
  page : Nat
  retry : Nat
  outcome : PageOutcome α
  deriving DecidableEq

/-- The `while (hasMorePages)` loop: issue a request, process its outcome,
and continue. Returns the trace of request events and the result (`none`
when the supplied fuel ran out before the loop terminated). -/
def runFetch {α : Type} (env : Nat → PageOutcome α) :
    Nat → FetchState α →
    List (ReqEvent α) × Option (Except (FetchErr α) (List α))
  | 0, _ => ([], none)
  | fuel + 1, s =>
      if s.hasMore then
        let o := env s.reqIdx
        let ev : ReqEvent α := ⟨s.now, s.page, s.retryCount, o⟩
        match processOutcome { s with reqIdx := s.reqIdx + 1 } o with
        | .error e => ([ev], some (.error e))
        | .ok s2 =>
            let r := runFetch env fuel s2
            (ev :: r.1, r.2)
      else ([], some (.ok s.allData))

def initFetchState {α : Type} (t0 : Nat) : FetchState α := ⟨1, [], true, 0, t0, 0⟩

/-! ## Data model (src/src/types.ts)

`Commit` keeps the fields the engine reads: `sha`, the structured author
login (`commit.author?.login`, absent when GitHub has no account for the
author), the free-text author name and date (`commit.commit.author`), the
message, the parent shas (`parents?.map(p => p.sha)`, `[]` when absent),
and the server-added calendar-date field `date`. -/

structure Commit where
  sha : String
  authorLogin : Option String
  authorName : String
  authorDate : String
  message : String
  parents : List String
  date : Option String
  deriving DecidableEq

structure Branch where
  name : String
  headSha : String
  deriving DecidableEq

/-- Whether `needle` occurs at the start of `hay`. -/
def seqStartsWith : List Char → List Char → Bool
  | [], _ => true
  | _ :: _, [] => false
  | a :: as, b :: bs => a == b && seqStartsWith as bs

/-- Models `String.prototype.includes`, on the character lists. -/
def seqContains (needle : List Char) : List Char → Bool
  | [] => needle.isEmpty
  | c :: rest => seqStartsWith needle (c :: rest) || seqContains needle rest

def strIncludes (hay needle : String) : Bool :=
  seqContains needle.toList hay.toList

/-- Models `String.prototype.toLowerCase`, computed character-wise (the library
`String.toLower` is not kernel-reducible). -/
def strToLower (s : String) : String := String.mk (s.data.map Char.toLower)

/-- part_008's pull-request filter:
`message.toLowerCase().includes('merge pull request') || ...includes('pr #')`. -/
def isPRMessage (msg : String) : Bool :=
  strIncludes (strToLower msg) "merge pull request" ||
    strIncludes (strToLower msg) "pr #"

/-- The author key of a commit:
`commit.author?.login || commit.commit.author.name` (the empty-string
login is falsy in JS and also falls back to the name). -/
def authorKey (c : Commit) : String :=
  match c.authorLogin with
  | some l => if l = "" then c.authorName else l
  | none => c.authorName

/-! ## BranchResolver (src/unnamed/part_008 lines 143-175)

For each branch, a breadth-first traversal from the branch's head sha over
each commit's parent list, with a per-branch `processedCommits` set; a sha
with no matching commit in the (PR-filtered) fetched set contributes
nothing and its parents are unknown, so the traversal stops there. Each
while-loop iteration pops one queue element; elements are enqueued only
when a commit is processed for the first time (at most once per commit,
at most `parents.length` pushes) plus the initial head, so the total
number of iterations is at most `1 + Σ parents.length`, and
`bfsFuel commits` fuel is never exhausted. -/

def bfsAux (commits : List Commit) :
    Nat → List String → List String → List String → List String
  | 0, _, _, found => found
  | _ + 1, [], _, found => found
  | fuel + 1, cur :: queue, processed, found =>
      if cur ∈ processed then bfsAux commits fuel queue processed found
      else
        let processed := cur :: processed
        match commits.find? (fun c => c.sha == cur) with
        | none => bfsAux commits fuel queue processed found
        | some c =>
            let found := found ++ [cur]
            let queue := queue ++ c.parents.filter (fun p => p ∉ processed)
            bfsAux commits fuel queue processed found

def bfsFuel (commits : List Commit) : Nat :=
  1 + commits.length + (commits.map (fun c => c.parents.length)).sum

/-- The set of shas the branch traversal starting at `head` adds to the
branch's commit set, in insertion order. -/
def bfsReach (commits : List Commit) (head : String) : List String :=
  bfsAux commits (bfsFuel commits) [head] [] []

/-- Models `Set.prototype.add` of each element of `shas` in order. -/
def addShas (s shas : List String) : List String :=
  shas.foldl (fun s x => if x ∈ s then s else s ++ [x]) s

/-- The `branchCommits` map of part_008: initialize every branch name to an
empty set (`Map.set`, later duplicates overwrite), then run the traversal
for each branch, adding the reached shas to that branch's set
(`branchCommits.get(branch.name)?.add(...)`, a no-op if the name is
absent). -/
def branchCommitsMap (branches : List Branch) (commits : List Commit) :
    List (String × List String) :=
  let m0 := branches.foldl (fun m b => setA m b.name []) []
  branches.foldl
    (fun m b =>
      match lookupA m b.name with
      | none => m
      | some s => setA m b.name (addShas s (bfsReach commits b.headSha)))
    m0

/-- Models `Array.from(branchCommits.entries()).filter(([, s]) => s.has(sha)).map(([n]) => n)`:
the branch names whose resolved set contains the sha. -/
def commitBranchesOf (m : List (String × List String)) (sha : String) :
    List String :=
  (m.filter (fun p => p.2.contains sha)).map Prod.fst

/-! ## StatsAggregator, part_008 variant (src/unnamed/part_008 lines 177-212) -/

structure RepoStat8 where
  commits : Nat
  branches : List String
  deriving DecidableEq

structure UserStat8 where
  totalCommits : Nat
  repositories : List (String × RepoStat8)
  deriving DecidableEq

/-- One iteration of `nonPRCommits.forEach`: bump the author's totals, the
per-repository count, and union in the commit's resolved branch names
(only when nonempty, via `[...new Set([...old, ...commitBranches])]`). -/
def step8 (repoName : String) (m : List (String × List String))
    (stats : List (String × UserStat8)) (c : Commit) :
    List (String × UserStat8) :=
  let a := authorKey c
  updA stats a ⟨0, []⟩ fun u =>
    let u := { u with totalCommits := u.totalCommits + 1 }
    { u with repositories := updA u.repositories repoName ⟨0, []⟩ fun r =>
        let r := { r with commits := r.commits + 1 }
        let cbs := commitBranchesOf m c.sha
        if cbs.isEmpty then r
        else { r with branches := dedupFirst (r.branches ++ cbs) } }

/-- The part_008 per-repository pipeline: drop pull-request commits,
resolve branch membership over the filtered set, then fold the stats
loop. -/
def aggregate8 (repoName : String) (branches : List Branch)
    (commits : List Commit) : List (String × UserStat8) :=
  let nonPR := commits.filter (fun c => !isPRMessage c.message)
  let m := branchCommitsMap branches nonPR
  nonPR.foldl (step8 repoName m) []

/-! ## StatsAggregator, App.tsx variant (src/src/App.tsx lines 196-247)

Identical accumulation shape, but branch membership is by head-sha
equality and a per-repository `commitDates` histogram is kept
(`find` the date entry and bump `count`, else push `{date, count: 1}`). -/

structure RepoStatA where
  commits : Nat
  branches : List String
  commitDates : List (String × Nat)
  deriving DecidableEq

structure UserStatA where
  totalCommits : Nat
  repositories : List (String × RepoStatA)
  deriving DecidableEq

def commitBranchesA (branches : List Branch) (c : Commit) : List String :=
  (branches.filter (fun b => b.headSha == c.sha)).map Branch.name

def stepA (repoName : String) (branches : List Branch)
    (stats : List (String × UserStatA)) (c : Commit) :
    List (String × UserStatA) :=
  let a := authorKey c
  updA stats a ⟨0, []⟩ fun u =>
    let u := { u with totalCommits := u.totalCommits + 1 }
    { u with repositories := updA u.repositories repoName ⟨0, [], []⟩ fun r =>
        let r := { r with commits := r.commits + 1 }
        let cbs := commitBranchesA branches c
        let r := if cbs.isEmpty then r
          else { r with branches := dedupFirst (r.branches ++ cbs) }
        match c.date with
        | none => r
        | some d => { r with commitDates := updA r.commitDates d 0 (· + 1) } }

def aggregateA (repoName : String) (branches : List Branch)
    (commits : List Commit) : List (String × UserStatA) :=
  commits.foldl (stepA repoName branches) []

/-! Abstract views of an aggregation result: the per-author total, the
per-author/per-repository commit count, branch-set membership, and the
date histogram count. Absent authors/repositories/dates read as zero or
empty, matching the semantics of a missing JS object property. -/

def totalOf8 (stats : List (String × UserStat8)) (a : String) : Nat :=
  ((lookupA stats a).map UserStat8.totalCommits).getD 0

def repoCommitsOf8 (stats : List (String × UserStat8)) (a r : String) : Nat :=
  (((lookupA stats a).bind (fun u => lookupA u.repositories r)).map
    RepoStat8.commits).getD 0

def totalOfA (stats : List (String × UserStatA)) (a : String) : Nat :=
  ((lookupA stats a).map UserStatA.totalCommits).getD 0

def repoCommitsOfA (stats : List (String × UserStatA)) (a r : String) : Nat :=
  (((lookupA stats a).bind (fun u => lookupA u.repositories r)).map
    RepoStatA.commits).getD 0

def branchesOfA (stats : List (String × UserStatA)) (a r : String) :
    List String :=
  (((lookupA stats a).bind (fun u => lookupA u.repositories r)).map
    RepoStatA.branches).getD []

def dateCountOfA (stats : List (String × UserStatA)) (a r d : String) : Nat :=
  ((((lookupA stats a).bind (fun u => lookupA u.repositories r)).map
    RepoStatA.commitDates).getD []
    |> (fun l => (lookupA l d).getD 0))

/-! ## OrgSyncState watermark (src/cache-server/server.ts lines 204-216,
src/unnamed/part_012 lines 302-335, src/src/server.ts lines 976-1000)

`lastCommitDates` maps an organization to an ISO date string; date values
are modelled by their parsed timestamps (`Nat`, ms), so the JS comparison
`new Date(a) > new Date(b)` is `a > b`. -/

/-- Models `POST /api/cache/last-commit-date/:org` (src/cache-server/server.ts
lines 204-216): `cache.lastCommitDates[org] = date` — an unconditional
overwrite, with no monotonicity check. -/
def setLastCommitDate (st : List (String × Nat)) (org : String) (date : Nat) :
    List (String × Nat) :=
  setA st org date

/-- Models `const [org] = repository.split('/')`: the first `/`-separated
segment of the repository full name (`String.splitOn` is not
kernel-reducible, so the split head is modelled character-wise). -/
def orgOf (repository : String) : String :=
  String.mk (repository.toList.takeWhile (fun ch => ch != '/'))

/-- The watermark update inside `POST /api/cache/commits`
(src/unnamed/part_012 lines 323-331): the org is the first `/`-segment of
the repository full name, and the stored date is replaced by
`dateRange.until` only when no date is stored yet or the new one is more
recent. The posted commits themselves are written into `cache.commits`
but their own dates are never consulted for the watermark; they are
carried here (as parsed author timestamps) only to express that fact. -/
def postCommitsWatermark (st : List (String × Nat)) (repository : String)
    (_commitDates : List Nat) (dateRangeUntil : Option Nat) :
    List (String × Nat) :=
  match dateRangeUntil with
  | none => st
  | some u =>
      let org := orgOf repository
      match lookupA st org with
      | none => setA st org u
      | some cur => if u > cur then setA st org u else st

def CACHE_PERIOD_DAYS : Nat := 4

def msPerDay : Nat := 24 * 60 * 60 * 1000

/-- Models `cacheOrgData`'s start-date selection (src/src/server.ts lines
980-1000): use the organization's watermark when one exists, else fall
back to `subDays(endDate, CACHE_PERIOD_DAYS)`. -/
def startDateFor (endDate : Nat) (watermark : Option Nat) : Nat :=
  match watermark with
  | some w => w
  | none => endDate - CACHE_PERIOD_DAYS * msPerDay

/-! ## SyncOrchestrator per-repository isolation (src/src/server.ts lines
889-974 and 1018-1060)

The network is an environment of per-resource results; `Except.error`
models a rejected request (after `fetchAllPages`'s internal retries). -/

structure SyncEnv where
  branchesFor : String → Except String (List Branch)
  commitsFor : String → String → Except String (List Commit)
  postOk : String → Bool

/-- server.ts's merge/PR filter inside `fetchBranchCommits`:
`!message.includes('merge') && !message.includes('pull request') &&
!message.includes('pr #')` on the lowercased message. -/
def isMergeMsg (msg : String) : Bool :=
  strIncludes (strToLower msg) "merge" ||
    strIncludes (strToLower msg) "pull request" ||
    strIncludes (strToLower msg) "pr #"

/-- Models `fetchBranchCommits` (src/src/server.ts lines 889-938): fetch the
branch's commit pages, filter out merge/PR commits; a failure is rethrown
(as the typed error produced by `handleApiError`). -/
def fetchBranchCommitsModel (env : SyncEnv) (fullName : String) (b : Branch) :
    Except String (List Commit) :=
  match env.commitsFor fullName b.name with
  | .error e => .error e
  | .ok l => .ok (l.filter (fun c => !isMergeMsg c.message))

/-- Models `fetchAllRepoCommits` (src/src/server.ts lines 940-974): fetch the
branches, then per-branch commits where each rejected branch fetch is
caught and contributes `[]` (`.catch(... => [])` plus
`Promise.allSettled`); any other failure (the branch listing itself) is
caught by the outer handler, which degrades the whole repository to
`{ commits: [], branches: [] }`. Total: no exception escapes. -/
def fetchAllRepoCommitsModel (env : SyncEnv) (fullName : String) :
    List Commit × List Branch :=
  match env.branchesFor fullName with
  | .error _ => ([], [])
  | .ok branches =>
      let commits := (branches.map fun b =>
        match fetchBranchCommitsModel env fullName b with
        | .error _ => []
        | .ok l => l).flatten
      (commits, branches)

inductive RepoOutcome where
  | ok (commits : Nat)
  | failed
  deriving DecidableEq

/-- The per-repository task of `cacheOrgData`'s batch loop (src/src/server.ts
lines 1023-1045): fetch everything for the repo, POST the commits to the
cache server when nonempty; the surrounding `try/catch` maps a POST
failure to `{ success: false }` and a fetch can no longer throw. -/
def processRepo (env : SyncEnv) (fullName : String) : RepoOutcome :=
  let cs := (fetchAllRepoCommitsModel env fullName).1
  if cs.length > 0 then
    if env.postOk fullName then .ok cs.length else .failed
  else .ok 0

/-- The batch loop of `cacheOrgData` (src/src/server.ts lines 1018-1060):
repositories are processed in slices of `BATCH_SIZE = 5`; the batching and
the inter-batch delay affect only scheduling and rate-limit pacing, not
the computed per-repository outcomes. -/
def runSyncAux (env : SyncEnv) : Nat → List String → List RepoOutcome
  | 0, _ => []
  | fuel + 1, repos =>
      if repos.isEmpty then []
      else (repos.take 5).map (processRepo env)
        ++ runSyncAux env fuel (repos.drop 5)

def runSync (env : SyncEnv) (repos : List String) : List RepoOutcome :=
  runSyncAux env (repos.length + 1) repos

/-! Test fixture: the linear chain `C3 -> C2 -> C1` (with `C1`'s parent
`c0` outside the fetched window) plus one commit `cx` reachable from no
head, and branch heads `main@C3`, `feature@C2`. -/

def chainCommits : List Commit :=
  [⟨"c1", some "alice", "Alice", "2024-01-01T00:00:00Z", "first", ["c0"], none⟩,
   ⟨"c2", some "alice", "Alice", "2024-01-02T00:00:00Z", "second", ["c1"], none⟩,
   ⟨"c3", some "bob", "Bob", "2024-01-03T00:00:00Z", "third", ["c2"], none⟩,
   ⟨"cx", some "carol", "Carol", "2024-01-04T00:00:00Z", "isolated", [], none⟩]

def chainBranches : List Branch := [⟨"main", "c3"⟩, ⟨"feature", "c2"⟩]

/-! ## Association-list lemmas -/

theorem lookupA_setA_self {β : Type} (l : List (String × β)) (k : String)
    (v : β) : lookupA (setA l k v) k = some v := by
  induction l with
  | nil => simp [setA, lookupA]
  | cons p t ih =>
      obtain ⟨k', v'⟩ := p
      by_cases h : k' = k
      · simp [setA, h, lookupA]
      · simp [setA, h, lookupA, ih]

theorem lookupA_setA_ne {β : Type} (l : List (String × β)) (k k' : String)
    (v : β) (h : k' ≠ k) : lookupA (setA l k v) k' = lookupA l k' := by
  induction l with
  | nil =>
      simp only [setA, lookupA]
      rw [if_neg (fun hh : k = k' => h hh.symm)]
  | cons p t ih =>
      obtain ⟨k0, v0⟩ := p
      simp only [setA, lookupA]
      split
      · next h0 =>
          simp only [lookupA]
          rw [if_neg (fun hh : k0 = k' => h (hh.symm.trans h0)),
            if_neg (fun hh : k0 = k' => h (hh.symm.trans h0))]
      · next _ =>
          simp only [lookupA]
          by_cases h1 : k0 = k'
          · rw [if_pos h1, if_pos h1]
          · rw [if_neg h1, if_neg h1, ih]

theorem lookupA_updA_self {β : Type} (l : List (String × β)) (k : String)
    (d : β) (f : β → β) :
    lookupA (updA l k d f) k = some (f ((lookupA l k).getD d)) := by
  simp [updA, lookupA_setA_self]

theorem lookupA_updA_ne {β : Type} (l : List (String × β)) (k k' : String)
    (d : β) (f : β → β) (h : k' ≠ k) :
    lookupA (updA l k d f) k' = lookupA l k' := by
  simp [updA, lookupA_setA_ne _ _ _ _ h]

theorem lookupA_eraseA_ne {β : Type} (l : List (String × β)) (k k' : String)
    (h : k' ≠ k) : lookupA (eraseA l k) k' = lookupA l k' := by
  induction l with
  | nil => rfl
  | cons p t ih =>
      obtain ⟨k0, v0⟩ := p
      simp only [eraseA, lookupA]
      split
      · next h0 =>
          rw [if_neg (fun hh : k0 = k' => h (hh.symm.trans h0))]
      · next _ =>
          simp only [lookupA]
          by_cases h1 : k0 = k'
          · rw [if_pos h1, if_pos h1]
          · rw [if_neg h1, if_neg h1, ih]

theorem lookupA_of_not_mem_keys {β : Type} (l : List (String × β)) (k : String)
    (h : k ∉ keysA l) : lookupA l k = none := by
  induction l with
  | nil => rfl
  | cons p t ih =>
      obtain ⟨k0, v0⟩ := p
      simp only [keysA, List.map_cons, List.mem_cons] at h
      push_neg at h
      simp only [lookupA]
      rw [if_neg (fun hh : k0 = k => h.1 hh.symm)]
      exact ih (by simpa [keysA] using h.2)

theorem keysA_setA {β : Type} (l : List (String × β)) (k : String) (v : β) :
    keysA (setA l k v) = if k ∈ keysA l then keysA l else keysA l ++ [k] := by
  induction l with
  | nil => simp [setA, keysA]
  | cons p t ih =>
      obtain ⟨k0, v0⟩ := p
      by_cases h0 : k0 = k
      · subst h0
        simp [setA, keysA]
      · have hne : ¬ k = k0 := fun hh => h0 hh.symm
        simp only [setA, if_neg h0, keysA, List.map_cons]
        simp only [keysA] at ih
        rw [ih]
        by_cases hk : k ∈ t.map Prod.fst
        · simp [hk, hne]
        · simp [hk, hne]

theorem keysA_nodup_setA {β : Type} (l : List (String × β)) (k : String)
    (v : β) (h : (keysA l).Nodup) : (keysA (setA l k v)).Nodup := by
  rw [keysA_setA]
  by_cases hk : k ∈ keysA l
  · simpa [hk]
  · simpa [hk, List.nodup_append] using h

theorem lookupA_eraseA_self {β : Type} (l : List (String × β)) (k : String)
    (h : (keysA l).Nodup) : lookupA (eraseA l k) k = none := by
  induction l with
  | nil => rfl
  | cons p t ih =>
      obtain ⟨k0, v0⟩ := p
      simp only [keysA, List.map_cons, List.nodup_cons] at h
      by_cases h0 : k0 = k
      · subst h0
        simp only [eraseA, if_pos rfl]
        exact lookupA_of_not_mem_keys t k0 h.1
      · have e1 : eraseA ((k0, v0) :: t) k = (k0, v0) :: eraseA t k := by
          simp [eraseA, h0]
        rw [e1]
        simp only [lookupA]
        rw [if_neg h0]
        exact ih h.2

theorem lookupA_mem {β : Type} (l : List (String × β)) (k : String) (v : β)
    (h : lookupA l k = some v) : (k, v) ∈ l := by
  induction l with
  | nil => simp [lookupA] at h
  | cons p t ih =>
      obtain ⟨k0, v0⟩ := p
      by_cases h0 : k0 = k
      · subst h0
        simp only [lookupA] at h
        simp only [if_pos rfl, if_true, eq_self_iff_true, ite_true] at h
        simp only [Option.some.injEq] at h
        subst h
        exact List.mem_cons_self _ _
      · simp only [lookupA] at h
        rw [if_neg h0] at h
        exact List.mem_cons_of_mem _ (ih h)

theorem lookupA_of_mem_nodup {β : Type} (l : List (String × β)) (k : String)
    (v : β) (hnd : (keysA l).Nodup) (h : (k, v) ∈ l) :
    lookupA l k = some v := by
  induction l with
  | nil => simp at h
  | cons p t ih =>
      obtain ⟨k0, v0⟩ := p
      simp only [keysA, List.map_cons, List.nodup_cons] at hnd
      rcases List.mem_cons.mp h with h1 | h1
      · have hk : k0 = k := by
          have := congrArg Prod.fst h1
          simpa using this.symm
        have hv : v0 = v := by
          have := congrArg Prod.snd h1
          simpa using this.symm
        subst hk
        subst hv
        simp [lookupA]
      · have hk0 : k0 ≠ k := by
          intro hh
          subst hh
          exact hnd.1 (List.mem_map.mpr ⟨(k0, v), h1, rfl⟩)
        simp only [lookupA]
        rw [if_neg hk0]
        exact ih hnd.2 h1

theorem mem_dedupFirstAux (a : String) :
    ∀ (l seen : List String),
    a ∈ dedupFirstAux seen l ↔ a ∈ l ∧ a ∉ seen := by
  intro l
  induction l with
  | nil => intro seen; simp [dedupFirstAux]
  | cons x xs ih =>
      intro seen
      by_cases hx : x ∈ seen
      · rw [dedupFirstAux, if_pos hx, ih]
        by_cases ha : a = x
        · subst ha
          simp [hx]
        · simp [ha]
      · rw [dedupFirstAux, if_neg hx]
        simp only [List.mem_cons, ih]
        by_cases ha : a = x
        · subst ha
          simp [hx]
        · simp [ha]

theorem mem_dedupFirst (l : List String) (a : String) :
    a ∈ dedupFirst l ↔ a ∈ l := by
  rw [dedupFirst, mem_dedupFirstAux]
  simp

theorem mem_addShas (s shas : List String) (a : String) :
    a ∈ addShas s shas ↔ a ∈ s ∨ a ∈ shas := by
  induction shas generalizing s with
  | nil => simp [addShas]
  | cons x xs ih =>
      simp only [addShas, List.foldl_cons] at ih ⊢
      by_cases h : x ∈ s
      · rw [if_pos h, ih]
        by_cases ha : a = x
        · subst ha
          simp [h]
        · simp [ha]
      · rw [if_neg h, ih]
        simp only [List.mem_append, List.mem_singleton, List.mem_cons]
        tauto

/-! ## CacheStore lemmas -/

theorem getCat_putCat_self {α : Type} (c : Store α) (ty : CacheType)
    (l : List (String × CacheEntry α)) : getCat (putCat c ty l) ty = l := by
  cases ty <;> rfl

theorem trimAux_id {α : Type} (sz : Store α → Nat) (now : Nat)
    (hsz : ∀ s, sz s ≤ MAX_CACHE_SIZE) (fuel : Nat) (c : Store α) :
    trimAux sz now fuel c = c := by
  cases fuel with
  | zero => rfl
  | succ n => simp [trimAux, hsz c]

theorem trimCache_id {α : Type} (sz : Store α → Nat) (now : Nat)
    (hsz : ∀ s, sz s ≤ MAX_CACHE_SIZE) (c : Store α) :
    trimCache sz now c = c :=
  trimAux_id sz now hsz _ c

theorem saveToCache_eq_setCat {α : Type} (sz : Store α → Nat) (now : Nat)
    (ty : CacheType) (k : String) (v : α) (c : Store α)
    (hsz : ∀ s, sz s ≤ MAX_CACHE_SIZE) :
    saveToCache sz now ty k v c =
      setCat c ty k ⟨now, v, now + CACHE_TTL, "API"⟩ := by
  simp [saveToCache, trimCache_id sz now hsz]

theorem lookupCat_setCat_self {α : Type} (c : Store α) (ty : CacheType)
    (k : String) (e : CacheEntry α) : lookupCat (setCat c ty k e) ty k = some e := by
  simp [lookupCat, setCat, getCat_putCat_self, lookupA_setA_self]

/-- C2, positive content (under the strict expiry actually implemented):
`put` stamps `timestamp = now`, `expiresAt = now + CACHE_TTL` and
overwrites; a `get` at any `t2 ≤ expiresAt` returns the value and leaves
the store unchanged; a `get` at `t2 > expiresAt` misses, deletes the entry
as a side effect of that read, and a second `get` at the same time misses
with no further change. -/
theorem cache_put_get_ttl {α : Type} (sz : Store α → Nat) (now : Nat)
    (ty : CacheType) (k : String) (v : α) (c : Store α)
    (hsz : ∀ s, sz s ≤ MAX_CACHE_SIZE)
    (hnd : (keysA (getCat c ty)).Nodup) :
    lookupCat (saveToCache sz now ty k v c) ty k =
      some ⟨now, v, now + CACHE_TTL, "API"⟩ ∧
    (∀ t2, t2 ≤ now + CACHE_TTL →
      getFromCache sz t2 ty k (saveToCache sz now ty k v c) =
        (some v, saveToCache sz now ty k v c)) ∧
    (∀ t2, now + CACHE_TTL < t2 →
      getFromCache sz t2 ty k (saveToCache sz now ty k v c) =
        (none, eraseCat (saveToCache sz now ty k v c) ty k) ∧
      lookupCat (eraseCat (saveToCache sz now ty k v c) ty k) ty k = none ∧
      getFromCache sz t2 ty k (eraseCat (saveToCache sz now ty k v c) ty k) =
        (none, eraseCat (saveToCache sz now ty k v c) ty k)) := by
  rw [saveToCache_eq_setCat sz now ty k v c hsz]
  have hlook : lookupCat (setCat c ty k ⟨now, v, now + CACHE_TTL, "API"⟩) ty k =
      some ⟨now, v, now + CACHE_TTL, "API"⟩ := lookupCat_setCat_self c ty k _
  have hnd' : (keysA (getCat (setCat c ty k ⟨now, v, now + CACHE_TTL, "API"⟩) ty)).Nodup := by
    rw [setCat, getCat_putCat_self]
    exact keysA_nodup_setA _ _ _ hnd
  have hlookE : lookupCat
      (eraseCat (setCat c ty k ⟨now, v, now + CACHE_TTL, "API"⟩) ty k) ty k = none := by
    rw [eraseCat, lookupCat, getCat_putCat_self]
    exact lookupA_eraseA_self _ _ hnd'
  refine ⟨hlook, ?_, ?_⟩
  · intro t2 ht
    rw [getFromCache]
    rw [trimCache_id sz t2 hsz]
    rw [hlook]
    simp only []
    rw [if_neg (by simp; omega)]
  · intro t2 ht
    refine ⟨?_, hlookE, ?_⟩
    · rw [getFromCache]
      rw [trimCache_id sz t2 hsz]
      rw [hlook]
      simp only []
      rw [if_pos (by simpa using ht)]
      rw [trimCache_id sz t2 hsz]
    · rw [getFromCache]
      rw [trimCache_id sz t2 hsz]
      rw [hlookE]

/-! ## trimCache oldest-entry scan -/

theorem scan_le {α : Type} (l : List (CacheType × String × CacheEntry α)) :
    ∀ (t0 : Nat) (s0 : Option (CacheType × String)),
    (l.foldl (fun acc e =>
        if e.2.2.timestamp < acc.1 then (e.2.2.timestamp, some (e.1, e.2.1))
        else acc) (t0, s0)).1 ≤ t0 ∧
    ∀ p ∈ l, (l.foldl (fun acc e =>
        if e.2.2.timestamp < acc.1 then (e.2.2.timestamp, some (e.1, e.2.1))
        else acc) (t0, s0)).1 ≤ p.2.2.timestamp := by
  induction l with
  | nil => intro t0 s0; exact ⟨le_refl _, by simp⟩
  | cons q l ih =>
      intro t0 s0
      simp only [List.foldl_cons]
      by_cases hq : q.2.2.timestamp < t0
      · rw [if_pos hq]
        obtain ⟨h1, h2⟩ := ih q.2.2.timestamp (some (q.1, q.2.1))
        refine ⟨le_trans h1 (le_of_lt hq), ?_⟩
        intro p hp
        rcases List.mem_cons.mp hp with h | h
        · subst h; exact h1
        · exact h2 p h
      · rw [if_neg hq]
        obtain ⟨h1, h2⟩ := ih t0 s0
        refine ⟨h1, ?_⟩
        intro p hp
        rcases List.mem_cons.mp hp with h | h
        · subst h; exact le_trans h1 (le_of_not_lt hq)
        · exact h2 p h

theorem scan_sel {α : Type} (l : List (CacheType × String × CacheEntry α)) :
    ∀ (t0 : Nat) (s0 : Option (CacheType × String)),
    (let r := l.foldl (fun acc e =>
        if e.2.2.timestamp < acc.1 then (e.2.2.timestamp, some (e.1, e.2.1))
        else acc) (t0, s0)
     (r.2 = s0 ∧ r.1 = t0) ∨
       ∃ p ∈ l, r.2 = some (p.1, p.2.1) ∧ r.1 = p.2.2.timestamp ∧
         p.2.2.timestamp < t0) := by
  induction l with
  | nil => intro t0 s0; exact .inl ⟨rfl, rfl⟩
  | cons q l ih =>
      intro t0 s0
      simp only [List.foldl_cons]
      by_cases hq : q.2.2.timestamp < t0
      · rw [if_pos hq]
        rcases ih q.2.2.timestamp (some (q.1, q.2.1)) with ⟨h1, h2⟩ | ⟨p, hp, h1, h2, h3⟩
        · exact .inr ⟨q, List.mem_cons_self _ _, h1, h2, hq⟩
        · exact .inr ⟨p, List.mem_cons_of_mem _ hp, h1, h2, lt_trans h3 hq⟩
      · rw [if_neg hq]
        rcases ih t0 s0 with ⟨h1, h2⟩ | ⟨p, hp, h1, h2, h3⟩
        · exact .inl ⟨h1, h2⟩
        · exact .inr ⟨p, List.mem_cons_of_mem _ hp, h1, h2, h3⟩

/-- A selected eviction victim is an actual entry, strictly older than
`now`, and globally oldest among all categories. -/
theorem findOldest_spec {α : Type} (now : Nat) (c : Store α)
    (ty : CacheType) (k : String) (h : findOldest now c = some (ty, k)) :
    ∃ p ∈ entriesOf c, p.1 = ty ∧ p.2.1 = k ∧ p.2.2.timestamp < now ∧
      ∀ q ∈ entriesOf c, p.2.2.timestamp ≤ q.2.2.timestamp := by
  rcases scan_sel (entriesOf c) now none with ⟨h1, _⟩ | ⟨p, hp, h1, h2, h3⟩
  · rw [findOldest] at h
    rw [h1] at h
    exact absurd h (by simp)
  · refine ⟨p, hp, ?_, ?_, h3, ?_⟩
    · rw [findOldest] at h
      rw [h1] at h
      exact (Prod.mk.injEq .. ▸ (Option.some.injEq .. ▸ h)).1.symm ▸ rfl
    · rw [findOldest] at h
      rw [h1] at h
      have := (Option.some.injEq .. ▸ h)
      exact (Prod.mk.injEq .. ▸ this).2
    · intro q hq
      rw [← h2]
      exact (scan_le (entriesOf c) now none).2 q hq

theorem length_eraseA {β : Type} (l : List (String × β)) (k : String)
    (h : k ∈ keysA l) : (eraseA l k).length + 1 = l.length := by
  induction l with
  | nil => simp [keysA] at h
  | cons p t ih =>
      obtain ⟨k0, v0⟩ := p
      by_cases h0 : k0 = k
      · simp [eraseA, h0]
      · simp only [keysA, List.map_cons, List.mem_cons] at h
        rcases h with h | h
        · exact absurd h.symm h0
        · simp only [eraseA, if_neg h0, List.length_cons]
          rw [← ih (by simpa [keysA] using h)]

theorem mem_getCat_of_mem_entriesOf {α : Type} (c : Store α)
    (p : CacheType × String × CacheEntry α) (h : p ∈ entriesOf c) :
    p.2 ∈ getCat c p.1 := by
  simp only [entriesOf, List.mem_append, List.mem_map, or_assoc] at h
  rcases h with ⟨q, hq, he⟩ | ⟨q, hq, he⟩ | ⟨q, hq, he⟩
  · subst he
    simpa [getCat] using hq
  · subst he
    simpa [getCat] using hq
  · subst he
    simpa [getCat] using hq

theorem entryCount_eraseCat {α : Type} (c : Store α) (ty : CacheType)
    (k : String) (h : k ∈ keysA (getCat c ty)) :
    entryCount (eraseCat c ty k) + 1 = entryCount c := by
  have hl := length_eraseA (getCat c ty) k h
  cases ty <;>
    · simp only [entryCount, entriesOf, eraseCat, putCat, getCat,
        List.length_append, List.length_map] at hl ⊢
      omega

theorem findOldest_nil {α : Type} (now : Nat) (c : Store α)
    (h : entriesOf c = []) : findOldest now c = none := by
  rw [findOldest, h]
  rfl

theorem trimAux_eq_none {α : Type} (sz : Store α → Nat) (now : Nat)
    (n : Nat) (c : Store α) (h1 : ¬ sz c ≤ MAX_CACHE_SIZE)
    (h2 : findOldest now c = none) : trimAux sz now (n + 1) c = c := by
  rw [trimAux, if_neg h1, h2]

theorem trimAux_eq_some {α : Type} (sz : Store α → Nat) (now : Nat)
    (n : Nat) (c : Store α) (ty : CacheType) (k : String)
    (h1 : ¬ sz c ≤ MAX_CACHE_SIZE) (h2 : findOldest now c = some (ty, k)) :
    trimAux sz now (n + 1) c =
      if k = "" then c else trimAux sz now n (eraseCat c ty k) := by
  rw [trimAux, if_neg h1, h2]

theorem trimAux_post {α : Type} (sz : Store α → Nat) (now : Nat) :
    ∀ (fuel : Nat) (c : Store α), entryCount c ≤ fuel →
    sz (trimAux sz now fuel c) ≤ MAX_CACHE_SIZE ∨
      trimStuck now (trimAux sz now fuel c) := by
  intro fuel
  induction fuel with
  | zero =>
      intro c hc
      right
      have : entriesOf c = [] := List.length_eq_zero.mp (Nat.le_zero.mp hc)
      simp [trimAux, trimStuck, findOldest_nil now c this]
  | succ n ih =>
      intro c hc
      by_cases hle : sz c ≤ MAX_CACHE_SIZE
      · rw [trimAux, if_pos hle]
        exact .inl hle
      · cases hfo : findOldest now c with
        | none =>
            rw [trimAux_eq_none sz now n c hle hfo]
            right
            simp [trimStuck, hfo]
        | some tk =>
            obtain ⟨ty, k⟩ := tk
            rw [trimAux_eq_some sz now n c ty k hle hfo]
            by_cases hk : k = ""
            · rw [if_pos hk]
              right
              simp [trimStuck, hfo, hk]
            · rw [if_neg hk]
              apply ih
              obtain ⟨p, hp, hty, hkk, _, _⟩ := findOldest_spec now c ty k hfo
              have hmem : p.2 ∈ getCat c ty := hty ▸ mem_getCat_of_mem_entriesOf c p hp
              have hkey : k ∈ keysA (getCat c ty) := by
                have : p.2.1 ∈ keysA (getCat c ty) :=
                  List.mem_map.mpr ⟨p.2, hmem, rfl⟩
                rwa [hkk] at this
              have := entryCount_eraseCat c ty k hkey
              omega

/-- C3, positive content: a selected eviction victim is always a
globally-oldest entry (strictly older than the trimming instant), and
after `trimCache` — hence after every `put`, which ends in `trimCache` —
either the serialized size is within the 50MB ceiling or the loop is
stuck because no remaining entry is selectable (in particular every
remaining entry is stamped at or after the present instant, as a
just-written entry is). -/
theorem cache_trim_bound {α : Type} (sz : Store α → Nat) (now : Nat)
    (c : Store α) (ty : CacheType) (k : String) (v : α) :
    (findOldest now c = some (ty, k) →
      ∃ p ∈ entriesOf c, p.1 = ty ∧ p.2.1 = k ∧ p.2.2.timestamp < now ∧
        ∀ q ∈ entriesOf c, p.2.2.timestamp ≤ q.2.2.timestamp) ∧
    (sz (trimCache sz now c) ≤ MAX_CACHE_SIZE ∨
      trimStuck now (trimCache sz now c)) ∧
    (sz (saveToCache sz now ty k v c) ≤ MAX_CACHE_SIZE ∨
      trimStuck now (saveToCache sz now ty k v c)) := by
  refine ⟨findOldest_spec now c ty k, ?_, ?_⟩
  · exact trimAux_post sz now (entryCount c) c (le_refl _)
  · rw [saveToCache]
    exact trimAux_post sz now _ _ (le_refl _)

/-- C2 counterexample: at the expiry boundary `now = expiresAt` the code
still returns the value (`Date.now() > entry.expiresAt` is strict), so
"once now >= expiresAt, get(k) returns a miss" is false: the entry written
at 0 has `expiresAt = 3600000`, yet `get` at exactly 3600000 hits. -/
theorem cache_expiry_boundary_cex :
    lookupCat
        (saveToCache (fun _ => 0) 0 CacheType.repositories "k" (42 : Nat)
          emptyStore) CacheType.repositories "k" =
      some ⟨0, 42, 3600000, "API"⟩ ∧
    (getFromCache (fun _ => 0) 3600000 CacheType.repositories "k"
        (saveToCache (fun _ => 0) 0 CacheType.repositories "k" (42 : Nat)
          emptyStore)).1 = some 42 := by
  constructor <;> rfl

/-- Witness for `cache_put_get_ttl` at a concrete put/get sequence. -/
theorem cache_put_get_ttl_witness :
    getFromCache (fun _ => 0) 1000 CacheType.repositories "k"
        (saveToCache (fun _ => 0) 0 CacheType.repositories "k" (42 : Nat)
          emptyStore) =
      (some 42,
        saveToCache (fun _ => 0) 0 CacheType.repositories "k" 42 emptyStore) ∧
    (getFromCache (fun _ => 0) 3600001 CacheType.repositories "k"
        (saveToCache (fun _ => 0) 0 CacheType.repositories "k" (42 : Nat)
          emptyStore)).1 = none := by
  have h := cache_put_get_ttl (fun _ => 0) 0 CacheType.repositories "k"
    (42 : Nat) emptyStore (fun _ => Nat.zero_le _) (by decide)
  refine ⟨h.2.1 1000 (by decide), ?_⟩
  rw [(h.2.2 3600001 (by decide)).1]

/-- C3 counterexample: an entry stamped at the trimming instant is never
selectable (the scan starts at `Date.now()` with a strict comparison), so
a single put whose serialized footprint alone exceeds the 50MB ceiling
leaves the store over the ceiling: with a size function charging 10^8
bytes per entry, the store right after the put still holds the entry. -/
theorem cache_size_ceiling_cex :
    MAX_CACHE_SIZE <
      100000000 * entryCount
        (saveToCache (fun s => 100000000 * entryCount s) 0
          CacheType.repositories "k" (0 : Nat) emptyStore) := by
  decide

/-- Witness for `cache_trim_bound` at a concrete store holding one stale
entry, with a size function that forces an eviction. -/
theorem cache_trim_bound_witness :
    (∃ p ∈ entriesOf
        (⟨[("a", ⟨0, 7, 10, "API"⟩)], [], []⟩ : Store Nat),
      p.1 = CacheType.repositories ∧ p.2.1 = "a" ∧ p.2.2.timestamp < 5 ∧
        ∀ q ∈ entriesOf (⟨[("a", ⟨0, 7, 10, "API"⟩)], [], []⟩ : Store Nat),
          p.2.2.timestamp ≤ q.2.2.timestamp) ∧
    ((fun s => 100000000 * entryCount s)
        (trimCache (fun s => 100000000 * entryCount s) 5
          (⟨[("a", ⟨0, 7, 10, "API"⟩)], [], []⟩ : Store Nat)) ≤
        MAX_CACHE_SIZE ∨
      trimStuck 5
        (trimCache (fun s => 100000000 * entryCount s) 5
          (⟨[("a", ⟨0, 7, 10, "API"⟩)], [], []⟩ : Store Nat))) := by
  have h := cache_trim_bound (fun s => 100000000 * entryCount s) 5
    (⟨[("a", ⟨0, 7, 10, "API"⟩)], [], []⟩ : Store Nat)
    CacheType.repositories "a" (0 : Nat)
  exact ⟨h.1 (by decide), h.2.1⟩

/-! ## Pagination lemmas -/

theorem joinPages_succ {α : Type} (g : Nat → List α) (base n : Nat) :
    joinPages g base (n + 1) = g base ++ joinPages g (base + 1) n := by
  rw [joinPages, List.range_succ_eq_map, List.flatMap_cons, List.flatMap_map]
  simp only [Nat.add_zero]
  congr 1
  rw [joinPages]
  apply List.flatMap_congr ?_
  intro a _
  congr 1
  omega

theorem fetchGo_spec {α : Type} (g : Nat → List α) :
    ∀ (n page : Nat) (acc : List α) (reqs : Nat),
      1 ≤ page → page + n ≤ 10 →
      (∀ j, j < n → g (page + j) ≠ []) → g (page + n) = [] →
      fetchGo g (11 - page) page acc reqs =
        (acc ++ joinPages g page n, reqs + n + 1) := by
  intro n
  induction n with
  | zero =>
      intro page acc reqs h1 _ _ hempty
      have hf : 11 - page = (10 - page) + 1 := by omega
      simp only [Nat.add_zero] at hempty
      rw [hf, fetchGo]
      simp [hempty, joinPages]
  | succ n ih =>
      intro page acc reqs h1 h2 hfull hempty
      have hf : 11 - page = (10 - page) + 1 := by omega
      have hne : ¬ ((g page).isEmpty = true) := by
        have h0 := hfull 0 (Nat.succ_pos n)
        simpa [List.isEmpty_iff] using h0
      rw [hf, fetchGo]
      simp only []
      rw [if_neg hne, if_neg (by omega : ¬ page + 1 > 10)]
      have hshift : 10 - page = 11 - (page + 1) := by omega
      rw [hshift]
      have hIH := ih (page + 1) (acc ++ g page) (reqs + 1) (by omega) (by omega)
        (fun j hj => by
          have h0 := hfull (j + 1) (by omega)
          have e : page + (j + 1) = page + 1 + j := by omega
          rwa [e] at h0)
        (by
          have e : page + (n + 1) = page + 1 + n := by omega
          rwa [e] at hempty)
      rw [hIH, joinPages_succ]
      simp only [Prod.mk.injEq, List.append_assoc]
      exact ⟨trivial, by omega⟩

theorem fetchGo2_empties {α : Type} (pages : Nat → Resp2 α) :
    ∀ (page : Nat) (acc : List α) (reqs : Nat),
      1 ≤ page → page + 2 ≤ 10 →
      (∀ p, page ≤ p → pages p = Resp2.ok []) →
      fetchGo2 pages (11 - page) page 0 acc reqs = (.ok acc, reqs + 3) := by
  intro page acc reqs h1 h2 hall
  have e1 : pages page = .ok [] := hall page (le_refl _)
  have e2 : pages (page + 1) = .ok [] := hall _ (by omega)
  have e3 : pages (page + 2) = .ok [] := hall _ (by omega)
  have hf1 : 11 - page = (10 - page) + 1 := by omega
  rw [hf1, fetchGo2, e1]
  simp only [List.isEmpty_nil, if_true]
  rw [if_neg (by omega : ¬ 3 ≤ 0 + 1), if_neg (by omega : ¬ page + 1 > 10)]
  have hf2 : 10 - page = (9 - page) + 1 := by omega
  rw [hf2, fetchGo2, e2]
  simp only [List.isEmpty_nil, if_true]
  rw [if_neg (by omega : ¬ 3 ≤ 0 + 1 + 1), if_neg (by omega : ¬ page + 1 + 1 > 10)]
  have hf3 : 9 - page = (8 - page) + 1 := by omega
  rw [hf3, fetchGo2, e3]
  simp only [List.isEmpty_nil, if_true]
  rw [if_pos (by omega : 3 ≤ 0 + 1 + 1 + 1)]

theorem fetchGo2_full {α : Type} (pages : Nat → Resp2 α) :
    ∀ (n page : Nat) (acc : List α) (reqs : Nat),
      1 ≤ page → page + n + 2 ≤ 10 →
      (∀ j, j < n → ∃ l, pages (page + j) = Resp2.ok l ∧ l ≠ []) →
      (∀ p, page + n ≤ p → pages p = Resp2.ok []) →
      fetchGo2 pages (11 - page) page 0 acc reqs =
        (.ok (acc ++ joinPages (fun p => resp2Data (pages p)) page n),
          reqs + n + 3) := by
  intro n
  induction n with
  | zero =>
      intro page acc reqs h1 h2 _ hall
      rw [fetchGo2_empties pages page acc reqs h1 (by omega)
        (fun p hp => hall p (by omega))]
      simp [joinPages]
  | succ n ih =>
      intro page acc reqs h1 h2 hfull hall
      obtain ⟨l, hl, hlne⟩ := hfull 0 (Nat.succ_pos n)
      simp only [Nat.add_zero] at hl
      have hf : 11 - page = (10 - page) + 1 := by omega
      rw [hf, fetchGo2, hl]
      simp only []
      rw [if_neg (by simpa [List.isEmpty_iff] using hlne),
        if_neg (by omega : ¬ page + 1 > 10)]
      have hshift : 10 - page = 11 - (page + 1) := by omega
      rw [hshift]
      have hIH := ih (page + 1) (acc ++ l) (reqs + 1) (by omega) (by omega)
        (fun j hj => by
          have h0 := hfull (j + 1) (by omega)
          have e : page + (j + 1) = page + 1 + j := by omega
          rwa [e] at h0)
        (fun p hp => hall p (by omega))
      rw [hIH, joinPages_succ]
      simp only [Prod.mk.injEq, List.append_assoc, Except.ok.injEq]
      constructor
      · simp [hl, resp2Data]
      · omega

/-- C4 amended: the simple `fetchAllPages` terminates on the first empty
(or failed) page and the 10-page ceiling, so for `N ≤ 9` full pages
followed by an empty page it returns their concatenation in exactly `N + 1`
requests; the `MAX_EMPTY_PAGES` variant does not stop on a first empty
page but only after 3 consecutive empty ones (or the ceiling, or a 403),
so for `N ≤ 7` full pages followed by empty pages it returns the
concatenation in exactly `N + 3` requests; neither variant consults a
next-page continuation marker. -/
theorem pagination_termination {E α : Type} :
    (∀ (pages : Nat → Except E (List α)) (n : Nat),
      n ≤ 9 → (∀ j, j < n → silentFetch (pages (1 + j)) ≠ []) →
      silentFetch (pages (1 + n)) = [] →
      fetchAllPagesSimple pages =
        (joinPages (fun p => silentFetch (pages p)) 1 n, n + 1)) ∧
    (∀ (pages : Nat → Resp2 α) (n : Nat),
      n ≤ 7 → (∀ j, j < n → ∃ l, pages (1 + j) = Resp2.ok l ∧ l ≠ []) →
      (∀ p, 1 + n ≤ p → pages p = Resp2.ok []) →
      fetchAllPagesMulti pages =
        (.ok (joinPages (fun p => resp2Data (pages p)) 1 n), n + 3)) := by
  constructor
  · intro pages n hn hfull hempty
    have h := fetchGo_spec (fun p => silentFetch (pages p)) n 1 [] 0
      (le_refl _) (by omega) hfull hempty
    rw [fetchAllPagesSimple]
    rw [show (10 : Nat) = 11 - 1 from rfl]
    rw [h]
    simp
  · intro pages n hn hfull hall
    have h := fetchGo2_full pages n 1 [] 0 (le_refl _) (by omega) hfull hall
    rw [fetchAllPagesMulti]
    rw [show (10 : Nat) = 11 - 1 from rfl]
    rw [h]
    simp

/-- C4 counterexample: an upstream with 1 full page followed by empty
pages. The claim predicts `N + 1 = 2` requests, but the `MAX_EMPTY_PAGES`
variant of `fetchAllPages` keeps polling through empty pages until 3
consecutive ones, issuing 4 requests. -/
theorem pagination_termination_cex :
    (fetchAllPagesMulti
        (fun p => Resp2.ok (if p = 1 then [7] else ([] : List Nat)))).2 = 4 ∧
    (4 : Nat) ≠ 1 + 1 := by
  exact ⟨rfl, by decide⟩

/-- Witness for `pagination_termination` at one full page then empties. -/
theorem pagination_termination_witness :
    fetchAllPagesSimple
        (fun p => if p = 1 then Except.ok [5]
          else (Except.ok [] : Except Unit (List Nat))) = ([5], 2) ∧
    fetchAllPagesMulti
        (fun p => if p = 1 then Resp2.ok [5]
          else (Resp2.ok [] : Resp2 Nat)) = (.ok [5], 4) := by
  have h := pagination_termination (E := Unit) (α := Nat)
  constructor
  · have h1 := h.1
      (fun p => if p = 1 then Except.ok [5] else (Except.ok [] : Except Unit (List Nat)))
      1 (by omega)
      (fun j hj => by
        have : j = 0 := by omega
        subst this
        decide)
      (by decide)
    exact h1.trans (by decide)
  · have h2 := h.2
      (fun p => if p = 1 then Resp2.ok [5] else (Resp2.ok [] : Resp2 Nat))
      1 (by omega)
      (fun j hj => by
        have : j = 0 := by omega
        subst this
        exact ⟨[5], by decide, by decide⟩)
      (fun p hp => if_neg (by omega))
    exact h2.trans (by rfl)

/-- C10: the simple fetcher never propagates an error. A request failure
at any point is swallowed by `silentFetch` and (reading as an empty page)
terminates pagination with the items collected so far; consequently
`fetchOrgRepos` on an upstream that always fails (a nonexistent
organization) returns exactly what it returns for an organization with no
repositories: the empty list, with identical cache effects. -/
theorem silent_fetch_total {E : Type} :
    (∀ {α : Type} (pages : Nat → Except E (List α)) (n : Nat) (e : E),
      n ≤ 9 → (∀ j, j < n → silentFetch (pages (1 + j)) ≠ []) →
      pages (1 + n) = .error e →
      fetchAllPagesSimple pages =
        (joinPages (fun p => silentFetch (pages p)) 1 n, n + 1)) ∧
    (∀ (sz : Store (List Repository) → Nat) (now : Nat) (org : String)
        (auth : Bool) (e : E),
      fetchOrgReposSimple sz now org auth (fun _ => Except.error e)
          emptyStore =
        fetchOrgReposSimple sz now org auth
          (fun _ => (Except.ok [] : Except E (List Repository))) emptyStore ∧
      (fetchOrgReposSimple sz now org auth (fun _ => Except.error e)
          emptyStore).1 = []) := by
  constructor
  · intro α pages n e hn hfull herr
    have h := fetchGo_spec (fun p => silentFetch (pages p)) n 1 [] 0
      (le_refl _) (by omega) hfull (by simp only []; rw [herr]; rfl)
    rw [fetchAllPagesSimple, show (10 : Nat) = 11 - 1 from rfl, h]
    simp
  · intro sz now org auth e
    exact ⟨rfl, rfl⟩

/-- Witness for `silent_fetch_total`: a page of data, then a failure. -/
theorem silent_fetch_total_witness :
    fetchAllPagesSimple
        (fun p => if p = 1 then Except.ok [3]
          else (Except.error () : Except Unit (List Nat))) = ([3], 2) ∧
    (fetchOrgReposSimple (fun _ => 0) 0 "acme" false
        (fun _ => (Except.error () : Except Unit (List Repository)))
        emptyStore).1 = [] := by
  have h := silent_fetch_total (E := Unit)
  constructor
  · have h1 := h.1
      (fun p => if p = 1 then Except.ok [3] else (Except.error () : Except Unit (List Nat)))
      1 () (by omega)
      (fun j hj => by
        have : j = 0 := by omega
        subst this
        decide)
      rfl
    exact h1.trans (by decide)
  · exact (h.2 (fun _ => 0) 0 "acme" false ()).2

/-! ## Rate-limit / retry step lemmas (src/src/server.ts fetchAllPages) -/

theorem processOutcome_fail403 {α : Type} (s : FetchState α) (T : Nat)
    (h : s.now < T) :
    processOutcome s (.failure true (some 403) true (some T)) =
      .ok { s with now := T } := by
  simp [processOutcome, h]

theorem processOutcome_5xx_step {α : Type} (s : FetchState α) (st : Nat)
    (rz : Bool) (rt : Option Nat) (h5 : 500 ≤ st) :
    processOutcome s (.failure true (some st) rz rt) =
      if s.retryCount < 3 then
        .ok { s with
          retryCount := s.retryCount + 1,
          now := s.now + 1000 * 2 ^ s.retryCount }
      else .error (.fromResponse (.failure true (some st) rz rt)) := by
  have hne : (some st == some 403) = false := by
    simp only [beq_eq_false_iff_ne, ne_eq, Option.some.injEq]
    omega
  have h5x : is5xx (some st) = true := by
    simp only [is5xx, Bool.or_eq_true, beq_iff_eq, decide_eq_true_eq]
    right
    exact h5
  simp [processOutcome, hne, h5x, maxRetries, baseDelay]

theorem processOutcome_now_mono {α : Type} (s : FetchState α)
    (o : PageOutcome α) (s2 : FetchState α)
    (h : processOutcome s o = .ok s2) : s.now ≤ s2.now := by
  cases o with
  | success d hn rem reset st =>
      by_cases h5 : (st == 530 || decide (500 ≤ st)) = true
      · simp [processOutcome, h5] at h
      · by_cases hempty : d.isEmpty <;> by_cases hnext : hn = true <;>
          by_cases hrl : rem ≤ 1 <;> by_cases hlt : s.now < reset <;>
          · simp [processOutcome, h5, hempty, hnext, hrl, hlt] at h
            first
            | omega
            | (have hn2 := congrArg FetchState.now h
               simp at hn2
               omega)
  | failure isA st rz rt =>
      rcases rt with _ | T
      · simp only [processOutcome] at h
        rw [if_neg (by simp)] at h
        by_cases hc2 : (isA && is5xx st && decide (s.retryCount < maxRetries)) = true
        · rw [if_pos hc2] at h
          simp only [Except.ok.injEq] at h
          rw [← h]
          show s.now ≤ s.now + baseDelay * 2 ^ s.retryCount
          omega
        · rw [if_neg hc2] at h
          exact absurd h (by simp)
      · simp only [processOutcome] at h
        by_cases hc1 : (isA && st == some 403 && rz && decide (s.now < T)) = true
        · rw [if_pos hc1] at h
          simp only [Except.ok.injEq] at h
          rw [← h]
          simp only [Bool.and_eq_true, decide_eq_true_eq] at hc1
          show s.now ≤ (some T).getD s.now
          simp only [Option.getD_some]
          exact le_of_lt hc1.2
        · rw [if_neg hc1] at h
          by_cases hc2 : (isA && is5xx st && decide (s.retryCount < maxRetries)) = true
          · rw [if_pos hc2] at h
            simp only [Except.ok.injEq] at h
            rw [← h]
            show s.now ≤ s.now + baseDelay * 2 ^ s.retryCount
            omega
          · rw [if_neg hc2] at h
            exact absurd h (by simp)

theorem processOutcome_ratelimit {α : Type} (s : FetchState α) (d : List α)
    (hn : Bool) (rem reset st : Nat) (s2 : FetchState α)
    (h : processOutcome s (.success d hn rem reset st) = .ok s2)
    (hrem : rem ≤ 1) : reset ≤ s2.now := by
  by_cases h5 : (st == 530 || decide (500 ≤ st)) = true
  · simp [processOutcome, h5] at h
  · by_cases hempty : d.isEmpty <;> by_cases hnext : hn = true <;>
      by_cases hlt : s.now < reset <;>
      · simp [processOutcome, h5, hempty, hnext, hrem, hlt] at h
        first
        | omega
        | (have hn2 := congrArg FetchState.now h
           simp at hn2
           omega)

theorem runFetch_mem_time {α : Type} (env : Nat → PageOutcome α) :
    ∀ (fuel : Nat) (s : FetchState α) (ev : ReqEvent α),
      ev ∈ (runFetch env fuel s).1 → s.now ≤ ev.time := by
  intro fuel
  induction fuel with
  | zero =>
      intro s ev hev
      simp [runFetch] at hev
  | succ n ih =>
      intro s ev hev
      rw [runFetch] at hev
      by_cases hm : s.hasMore
      · rw [if_pos hm] at hev
        cases hpo : processOutcome { s with reqIdx := s.reqIdx + 1 }
            (env s.reqIdx) with
        | error e =>
            simp only [hpo] at hev
            simp only [List.mem_singleton] at hev
            rw [hev]
        | ok s2 =>
            simp only [hpo] at hev
            rcases List.mem_cons.mp hev with h | h
            · rw [h]
            · have hmono := processOutcome_now_mono _ _ _ hpo
              exact le_trans hmono (ih s2 ev h)
      · rw [if_neg hm] at hev
        simp at hev

theorem runFetch_ratelimit_gap {α : Type} (env : Nat → PageOutcome α) :
    ∀ (fuel : Nat) (s : FetchState α) (i : Nat) (ev ev' : ReqEvent α)
      (d : List α) (hn : Bool) (rem reset st : Nat),
      (runFetch env fuel s).1.get? i = some ev →
      (runFetch env fuel s).1.get? (i + 1) = some ev' →
      ev.outcome = .success d hn rem reset st →
      rem ≤ 1 → reset ≤ ev'.time := by
  intro fuel
  induction fuel with
  | zero =>
      intro s i ev ev' d hn rem reset st h1 h2 _ _
      simp [runFetch] at h1
  | succ n ih =>
      intro s i ev ev' d hn rem reset st h1 h2 hout hrem
      rw [runFetch] at h1 h2
      by_cases hm : s.hasMore
      · rw [if_pos hm] at h1 h2
        cases hpo : processOutcome { s with reqIdx := s.reqIdx + 1 }
            (env s.reqIdx) with
        | error e =>
            simp only [hpo] at h1 h2
            rcases i with _ | i
            · simp at h2
            · simp at h1
        | ok s2 =>
            simp only [hpo] at h1 h2
            rcases i with _ | i
            · simp only [List.get?_cons_zero, Option.some.injEq] at h1
              simp only [List.get?_cons_succ] at h2
              have hev' : ev' ∈ (runFetch env n s2).1 := List.get?_mem h2
              have htime : s2.now ≤ ev'.time := runFetch_mem_time env n s2 ev' hev'
              have henv : env s.reqIdx = .success d hn rem reset st := by
                rw [← hout, ← h1]
              rw [henv] at hpo
              have := processOutcome_ratelimit _ _ _ _ _ _ _ hpo hrem
              omega
            · simp only [List.get?_cons_succ] at h1 h2
              exact ih s2 i ev ev' d hn rem reset st h1 h2 hout hrem
      · rw [if_neg hm] at h1
        simp at h1

/-- C5 amended: (a) after any successful page reporting `remaining ≤ 1`
with reset time `T`, the next request of the run is issued no earlier
than `T`; (b) a request failing with the rate-limit signal (403 with
remaining `'0'`) whose reported reset `T` lies strictly in the future is
retried at the same page after sleeping until `T`, with the
transient-failure retry counter untouched; a 403-with-remaining-0 whose
reset is not in the future falls through and the error propagates (see
the counterexample). -/
theorem ratelimit_policy {α : Type} :
    (∀ (env : Nat → PageOutcome α) (fuel : Nat) (s : FetchState α) (i : Nat)
      (ev ev' : ReqEvent α) (d : List α) (hn : Bool) (rem reset st : Nat),
      (runFetch env fuel s).1.get? i = some ev →
      (runFetch env fuel s).1.get? (i + 1) = some ev' →
      ev.outcome = .success d hn rem reset st →
      rem ≤ 1 → reset ≤ ev'.time) ∧
    (∀ (s : FetchState α) (T : Nat), s.now < T →
      processOutcome s (.failure true (some 403) true (some T)) =
        .ok { s with now := T }) := by
  exact ⟨fun env fuel => runFetch_ratelimit_gap env fuel,
    fun s T h => processOutcome_fail403 s T h⟩

/-- C5 counterexample: a 403-with-remaining-0 failure whose reported
reset time (0) is not in the future is not retried: the run makes exactly
one request and surfaces the error, while the claim requires a
sleep-and-retry of the same page. -/
theorem ratelimit_policy_cex :
    (runFetch (fun _ => PageOutcome.failure true (some 403) true (some 0)) 5
      (initFetchState 100 : FetchState Nat)).1.length = 1 ∧
    (runFetch (fun _ => PageOutcome.failure true (some 403) true (some 0)) 5
      (initFetchState 100 : FetchState Nat)).2 =
      some (.error (.fromResponse (.failure true (some 403) true (some 0)))) := by
  constructor <;> rfl

/-- Witness for `ratelimit_policy`: a run whose first page reports
remaining 0 with reset 500; the second request is issued at 500. -/
theorem ratelimit_policy_witness :
    (500 : Nat) ≤
      ((((runFetch
        (fun i => if i = 0 then PageOutcome.success [1] true 0 500 200
          else (PageOutcome.success [] false 5 0 200 : PageOutcome Nat)) 5
        (initFetchState 100)).1.get? 1).getD
          ⟨0, 0, 0, .success [] false 0 0 0⟩).time) ∧
    processOutcome (initFetchState 100 : FetchState Nat)
        (.failure true (some 403) true (some 200)) =
      .ok { (initFetchState 100 : FetchState Nat) with now := 200 } := by
  have h := ratelimit_policy (α := Nat)
  constructor
  · have hgap := h.1
      (fun i => if i = 0 then PageOutcome.success [1] true 0 500 200
        else (PageOutcome.success [] false 5 0 200 : PageOutcome Nat)) 5
      (initFetchState 100) 0 ⟨100, 1, 0, .success [1] true 0 500 200⟩
      ⟨500, 2, 0, .success [] false 5 0 200⟩ [1] true 0 500 200
      rfl rfl rfl (by omega)
    exact hgap
  · exact h.2 (initFetchState 100) 200 (by norm_num [initFetchState])

theorem runFetch_succ {α : Type} (env : Nat → PageOutcome α) (fuel : Nat)
    (s : FetchState α) :
    runFetch env (fuel + 1) s =
      if s.hasMore then
        match processOutcome { s with reqIdx := s.reqIdx + 1 } (env s.reqIdx) with
        | .error e =>
            ([⟨s.now, s.page, s.retryCount, env s.reqIdx⟩], some (.error e))
        | .ok s2 =>
            ((⟨s.now, s.page, s.retryCount, env s.reqIdx⟩ : ReqEvent α) ::
              (runFetch env fuel s2).1, (runFetch env fuel s2).2)
      else ([], some (.ok s.allData)) := by
  rw [runFetch]

/-- C6: on a persistent server-side (5xx) failure the fetcher retries the
same page exactly 3 times with doubling backoff delays (1000ms, 2000ms,
4000ms) and then propagates the error (4 requests in total, all at page
1); a 404 or 401 failure is never retried (a single request, no delay,
immediate propagation); and `handleApiError` translates 404/401 into the
typed message carrying the resource context string. -/
theorem retry_backoff_policy :
    (∀ (t0 st : Nat), 500 ≤ st →
      runFetch (fun _ =>
          (PageOutcome.failure true (some st) false none : PageOutcome Nat))
          10 (initFetchState t0) =
        ([⟨t0, 1, 0, .failure true (some st) false none⟩,
          ⟨t0 + 1000, 1, 1, .failure true (some st) false none⟩,
          ⟨t0 + 3000, 1, 2, .failure true (some st) false none⟩,
          ⟨t0 + 7000, 1, 3, .failure true (some st) false none⟩],
          some (.error (.fromResponse (.failure true (some st) false none))))) ∧
    (∀ t0 : Nat,
      runFetch (fun _ =>
          (PageOutcome.failure true (some 404) false none : PageOutcome Nat))
          10 (initFetchState t0) =
        ([⟨t0, 1, 0, .failure true (some 404) false none⟩],
          some (.error (.fromResponse (.failure true (some 404) false none)))) ∧
      runFetch (fun _ =>
          (PageOutcome.failure true (some 401) false none : PageOutcome Nat))
          10 (initFetchState t0) =
        ([⟨t0, 1, 0, .failure true (some 401) false none⟩],
          some (.error (.fromResponse (.failure true (some 401) false none))))) ∧
    (∀ context : String,
      handleApiError true (some 404) context = context ++ " not found" ∧
      handleApiError true (some 401) context =
        "Invalid GitHub token for " ++ context) := by
  refine ⟨?_, ?_, ?_⟩
  · intro t0 st h5
    have hstep := fun (s : FetchState Nat) =>
      processOutcome_5xx_step s st false none h5
    have hA : ∀ (fuel pg rc t idx : Nat) (ad : List Nat), rc < 3 →
        runFetch (fun _ =>
            (PageOutcome.failure true (some st) false none : PageOutcome Nat))
            (fuel + 1) ⟨pg, ad, true, rc, t, idx⟩ =
          ((⟨t, pg, rc, .failure true (some st) false none⟩ : ReqEvent Nat) ::
            (runFetch (fun _ =>
                (PageOutcome.failure true (some st) false none : PageOutcome Nat))
              fuel ⟨pg, ad, true, rc + 1, t + 1000 * 2 ^ rc, idx + 1⟩).1,
            (runFetch (fun _ =>
                (PageOutcome.failure true (some st) false none : PageOutcome Nat))
              fuel ⟨pg, ad, true, rc + 1, t + 1000 * 2 ^ rc, idx + 1⟩).2) := by
      intro fuel pg rc t idx ad hrc
      rw [runFetch_succ]
      simp [hstep, hrc]
    have hB : ∀ (fuel pg t idx : Nat) (ad : List Nat),
        runFetch (fun _ =>
            (PageOutcome.failure true (some st) false none : PageOutcome Nat))
            (fuel + 1) ⟨pg, ad, true, 3, t, idx⟩ =
          ([⟨t, pg, 3, .failure true (some st) false none⟩],
            some (.error (.fromResponse
              (.failure true (some st) false none)))) := by
      intro fuel pg t idx ad
      rw [runFetch_succ]
      simp [hstep]
    rw [show initFetchState t0 = (⟨1, [], true, 0, t0, 0⟩ : FetchState Nat)
      from rfl]
    rw [show (10 : Nat) = 9 + 1 from rfl, hA 9 1 0 t0 0 [] (by omega)]
    rw [show (9 : Nat) = 8 + 1 from rfl,
      hA 8 1 1 (t0 + 1000 * 2 ^ 0) 1 [] (by omega)]
    rw [show (8 : Nat) = 7 + 1 from rfl,
      hA 7 1 2 (t0 + 1000 * 2 ^ 0 + 1000 * 2 ^ 1) 2 [] (by omega)]
    rw [show (7 : Nat) = 6 + 1 from rfl,
      hB 6 1 (t0 + 1000 * 2 ^ 0 + 1000 * 2 ^ 1 + 1000 * 2 ^ 2) 3 []]
    norm_num
  · intro t0
    constructor <;> rfl
  · intro context
    constructor <;> rfl

/-- Witness for `retry_backoff_policy` at `st = 500`, `t0 = 0`,
`context = "commits for org/repo"`. -/
theorem retry_backoff_policy_witness :
    runFetch (fun _ =>
        (PageOutcome.failure true (some 500) false none : PageOutcome Nat))
        10 (initFetchState 0) =
      ([⟨0, 1, 0, .failure true (some 500) false none⟩,
        ⟨1000, 1, 1, .failure true (some 500) false none⟩,
        ⟨3000, 1, 2, .failure true (some 500) false none⟩,
        ⟨7000, 1, 3, .failure true (some 500) false none⟩],
        some (.error (.fromResponse (.failure true (some 500) false none)))) ∧
    handleApiError true (some 404) "commits for org/repo" =
      "commits for org/repo not found" := by
  have h := retry_backoff_policy
  refine ⟨?_, (h.2.2 "commits for org/repo").1⟩
  have h1 := h.1 0 500 (by omega)
  simpa using h1

/-! ## BranchResolver lemmas (part_008) -/

theorem lookup_fold_init (bs : List Branch) :
    ∀ (m : List (String × List String)) (nm : String),
    lookupA (bs.foldl (fun m b => setA m b.name []) m) nm =
      if nm ∈ bs.map Branch.name then some [] else lookupA m nm := by
  induction bs with
  | nil => intro m nm; simp
  | cons b bs ih =>
      intro m nm
      simp only [List.foldl_cons, List.map_cons, List.mem_cons]
      rw [ih]
      by_cases h1 : nm ∈ bs.map Branch.name
      · simp [h1]
      · by_cases h2 : b.name = nm
        · subst h2
          simp [h1, lookupA_setA_self]
        · rw [if_neg h1, if_neg (by tauto), lookupA_setA_ne _ _ _ _ (by tauto)]

theorem lookup_fold_resolve_notmem (commits : List Commit) (bs : List Branch) :
    ∀ (m : List (String × List String)) (nm : String),
    (∀ b ∈ bs, b.name ≠ nm) →
    lookupA (bs.foldl (fun m b =>
        match lookupA m b.name with
        | none => m
        | some s => setA m b.name (addShas s (bfsReach commits b.headSha))) m)
      nm = lookupA m nm := by
  induction bs with
  | nil => intro m nm _; rfl
  | cons b bs ih =>
      intro m nm hne
      simp only [List.foldl_cons]
      rw [ih _ _ (fun b' hb' => hne b' (List.mem_cons_of_mem _ hb'))]
      cases hl : lookupA m b.name with
      | none => rfl
      | some s =>
          exact lookupA_setA_ne _ _ _ _
            (fun hh => hne b (List.mem_cons_self _ _) hh.symm)

theorem lookup_fold_resolve (commits : List Commit) (bs : List Branch) :
    ∀ (m : List (String × List String)) (b : Branch) (s0 : List String),
    (bs.map Branch.name).Nodup → b ∈ bs → lookupA m b.name = some s0 →
    lookupA (bs.foldl (fun m b =>
        match lookupA m b.name with
        | none => m
        | some s => setA m b.name (addShas s (bfsReach commits b.headSha))) m)
      b.name = some (addShas s0 (bfsReach commits b.headSha)) := by
  induction bs with
  | nil => intro m b s0 _ hb; simp at hb
  | cons hd tl ih =>
      intro m b s0 hnd hb hl
      simp only [List.map_cons, List.nodup_cons] at hnd
      simp only [List.foldl_cons]
      rcases List.mem_cons.mp hb with hbe | hbt
      · subst hbe
        rw [lookup_fold_resolve_notmem commits tl _ b.name
          (fun b' hb' hh => hnd.1 (hh ▸ List.mem_map.mpr ⟨b', hb', rfl⟩))]
        rw [hl]
        exact lookupA_setA_self _ _ _
      · have hne : hd.name ≠ b.name := fun hh =>
          hnd.1 (hh ▸ List.mem_map.mpr ⟨b, hbt, rfl⟩)
        have hstep : lookupA
            (match lookupA m hd.name with
             | none => m
             | some s => setA m hd.name (addShas s (bfsReach commits hd.headSha)))
            b.name = some s0 := by
          cases hl2 : lookupA m hd.name with
          | none => exact hl
          | some s => rw [lookupA_setA_ne _ _ _ _ (Ne.symm hne)]; exact hl
        exact ih _ b s0 hnd.2 hbt hstep

theorem lookup_branchCommitsMap_mem (bs : List Branch) (commits : List Commit)
    (b : Branch) (hnd : (bs.map Branch.name).Nodup) (hb : b ∈ bs) :
    lookupA (branchCommitsMap bs commits) b.name =
      some (addShas [] (bfsReach commits b.headSha)) := by
  rw [branchCommitsMap]
  exact lookup_fold_resolve commits bs _ b [] hnd hb
    (by rw [lookup_fold_init]
        simp [List.mem_map.mpr ⟨b, hb, rfl⟩])

theorem lookup_branchCommitsMap_notmem (bs : List Branch) (commits : List Commit)
    (nm : String) (hnm : nm ∉ bs.map Branch.name) :
    lookupA (branchCommitsMap bs commits) nm = none := by
  rw [branchCommitsMap]
  rw [lookup_fold_resolve_notmem commits bs _ nm
    (fun b hb hh => hnm (hh ▸ List.mem_map.mpr ⟨b, hb, rfl⟩))]
  rw [lookup_fold_init]
  simp [hnm, lookupA]

theorem keysA_fold_init_nodup (bs : List Branch) :
    ∀ (m : List (String × List String)), (keysA m).Nodup →
    (keysA (bs.foldl (fun m b => setA m b.name []) m)).Nodup := by
  induction bs with
  | nil => intro m h; exact h
  | cons b bs ih =>
      intro m h
      exact ih _ (keysA_nodup_setA _ _ _ h)

theorem keysA_fold_resolve_nodup (commits : List Commit) (bs : List Branch) :
    ∀ (m : List (String × List String)), (keysA m).Nodup →
    (keysA (bs.foldl (fun m b =>
        match lookupA m b.name with
        | none => m
        | some s => setA m b.name (addShas s (bfsReach commits b.headSha))) m)).Nodup := by
  induction bs with
  | nil => intro m h; exact h
  | cons b bs ih =>
      intro m h
      simp only [List.foldl_cons]
      apply ih
      cases hl : lookupA m b.name with
      | none => exact h
      | some s => exact keysA_nodup_setA _ _ _ h

theorem branchCommitsMap_keys_nodup (bs : List Branch) (commits : List Commit) :
    (keysA (branchCommitsMap bs commits)).Nodup := by
  rw [branchCommitsMap]
  exact keysA_fold_resolve_nodup commits bs _
    (keysA_fold_init_nodup bs [] (by simp [keysA]))

theorem mem_commitBranchesOf (m : List (String × List String))
    (hnd : (keysA m).Nodup) (sha b : String) :
    b ∈ commitBranchesOf m sha ↔ ∃ s, lookupA m b = some s ∧ sha ∈ s := by
  rw [commitBranchesOf]
  simp only [List.mem_map, List.mem_filter]
  constructor
  · rintro ⟨p, ⟨hpm, hps⟩, hpb⟩
    refine ⟨p.2, ?_, ?_⟩
    · rw [← hpb]
      exact lookupA_of_mem_nodup m p.1 p.2 hnd (by simpa using hpm)
    · simpa [List.contains, List.elem_iff] using hps
  · rintro ⟨s, hls, hmem⟩
    exact ⟨(b, s), ⟨lookupA_mem m b s hls,
      by simpa [List.contains, List.elem_iff] using hmem⟩, rfl⟩

/-! ## StatsAggregator lemmas (part_008) -/

theorem totalOf8_step (repoName : String) (m : List (String × List String))
    (stats : List (String × UserStat8)) (c : Commit) (a : String) :
    totalOf8 (step8 repoName m stats c) a =
      totalOf8 stats a + (if authorKey c = a then 1 else 0) := by
  by_cases ha : a = authorKey c
  · subst ha
    rw [step8, totalOf8, lookupA_updA_self]
    cases hl : lookupA stats (authorKey c) <;>
      simp [totalOf8, hl]
  · rw [step8, totalOf8, lookupA_updA_ne _ _ _ _ _ ha, totalOf8]
    rw [if_neg (fun hh => ha hh.symm)]
    omega

theorem repoCommitsOf8_step (repoName : String)
    (m : List (String × List String)) (stats : List (String × UserStat8))
    (c : Commit) (a r : String) :
    repoCommitsOf8 (step8 repoName m stats c) a r =
      repoCommitsOf8 stats a r +
        (if authorKey c = a ∧ r = repoName then 1 else 0) := by
  by_cases ha : a = authorKey c
  · subst ha
    rw [step8, repoCommitsOf8, lookupA_updA_self]
    by_cases hr : r = repoName
    · subst hr
      cases hl : lookupA stats (authorKey c) with
      | none =>
          simp [repoCommitsOf8, hl, lookupA_updA_self, lookupA,
            apply_ite RepoStat8.commits]
      | some u =>
          simp only [Option.getD_some, Option.some_bind]
          rw [show (lookupA
            (updA u.repositories r ⟨0, []⟩ (fun rs =>
              if (commitBranchesOf m c.sha).isEmpty then
                { rs with commits := rs.commits + 1 }
              else
                { commits := rs.commits + 1,
                  branches := dedupFirst (rs.branches ++ commitBranchesOf m c.sha) })) r) =
            some _ from lookupA_updA_self _ _ _ _]
          cases hl2 : lookupA u.repositories r <;>
            · simp [repoCommitsOf8, hl, hl2, apply_ite RepoStat8.commits]
    · cases hl : lookupA stats (authorKey c) with
      | none =>
          simp [repoCommitsOf8, hl, lookupA_updA_ne _ _ _ _ _ hr, lookupA,
            show repoName ≠ r from fun hh => hr hh.symm, hr]
      | some u =>
          simp [repoCommitsOf8, hl, lookupA_updA_ne _ _ _ _ _ hr, hr]
  · rw [step8, repoCommitsOf8, lookupA_updA_ne _ _ _ _ _ ha, repoCommitsOf8]
    rw [if_neg (fun hh => ha hh.1.symm)]
    omega

theorem totalOf8_foldl (repoName : String) (m : List (String × List String))
    (a : String) :
    ∀ (l : List Commit) (stats : List (String × UserStat8)),
    totalOf8 (l.foldl (step8 repoName m) stats) a =
      totalOf8 stats a + l.countP (fun c => authorKey c == a) := by
  intro l
  induction l with
  | nil => intro stats; simp
  | cons c l ih =>
      intro stats
      simp only [List.foldl_cons, List.countP_cons]
      rw [ih, totalOf8_step]
      by_cases h : authorKey c = a
      · simp only [h, if_pos rfl, beq_self_eq_true, if_true, cond_true]
        omega
      · simp [h]

theorem repoCommitsOf8_foldl (repoName : String)
    (m : List (String × List String)) (a r : String) :
    ∀ (l : List Commit) (stats : List (String × UserStat8)),
    repoCommitsOf8 (l.foldl (step8 repoName m) stats) a r =
      repoCommitsOf8 stats a r +
        l.countP (fun c => authorKey c == a && r == repoName) := by
  intro l
  induction l with
  | nil => intro stats; simp
  | cons c l ih =>
      intro stats
      simp only [List.foldl_cons, List.countP_cons]
      rw [ih, repoCommitsOf8_step]
      by_cases h1 : authorKey c = a <;> by_cases h2 : r = repoName <;>
        · simp [h1, h2]
          try omega

theorem mem_commitBranches_union (bs : List Branch) (commits : List Commit)
    (hnd : (bs.map Branch.name).Nodup) (sha b : String) :
    b ∈ commitBranchesOf (branchCommitsMap bs commits) sha ↔
      ∃ br ∈ bs, br.name = b ∧ sha ∈ bfsReach commits br.headSha := by
  rw [mem_commitBranchesOf _ (branchCommitsMap_keys_nodup bs commits)]
  by_cases hmem : b ∈ bs.map Branch.name
  · obtain ⟨br, hbr, hname⟩ := List.mem_map.mp hmem
    constructor
    · rintro ⟨s, hls, hs⟩
      rw [← hname] at hls
      rw [lookup_branchCommitsMap_mem bs commits br hnd hbr] at hls
      injection hls with hls
      subst hls
      exact ⟨br, hbr, hname, by simpa [mem_addShas] using hs⟩
    · rintro ⟨br', hbr', hname', hreach⟩
      refine ⟨addShas [] (bfsReach commits br'.headSha), ?_,
        by simp [mem_addShas, hreach]⟩
      rw [← hname']
      exact lookup_branchCommitsMap_mem bs commits br' hnd hbr'
  · constructor
    · rintro ⟨s, hls, _⟩
      rw [lookup_branchCommitsMap_notmem bs commits b hmem] at hls
      exact absurd hls (by simp)
    · rintro ⟨br', hbr', hname', _⟩
      exact absurd (hname' ▸ List.mem_map.mpr ⟨br', hbr', rfl⟩) hmem

/-- C1: (a) on the linear chain `C3 -> C2 -> C1` with heads `main@C3`,
`feature@C2`, the BFS branch resolution yields `C1 : [main, feature]`,
`C2 : [main, feature]`, `C3 : [main]`; `C1`'s parent `c0` is absent from
the fetched set and silently terminates the traversal; the unreachable
commit `cx` resolves to the empty branch set yet is still counted in the
aggregate; (b) in general a commit's resolved branch list is exactly the
set of branches from whose head it is reachable (the union over heads);
(c) every non-PR commit is counted in its author's total and
per-repository count regardless of branch membership (commits with empty
branch sets are not dropped). -/
theorem branch_resolution_correctness :
    (commitBranchesOf (branchCommitsMap chainBranches chainCommits) "c1" =
        ["main", "feature"] ∧
      commitBranchesOf (branchCommitsMap chainBranches chainCommits) "c2" =
        ["main", "feature"] ∧
      commitBranchesOf (branchCommitsMap chainBranches chainCommits) "c3" =
        ["main"] ∧
      commitBranchesOf (branchCommitsMap chainBranches chainCommits) "cx" =
        [] ∧
      totalOf8 (aggregate8 "repo" chainBranches chainCommits) "carol" = 1) ∧
    (∀ (bs : List Branch) (commits : List Commit) (sha b : String),
      (bs.map Branch.name).Nodup →
      (b ∈ commitBranchesOf (branchCommitsMap bs commits) sha ↔
        ∃ br ∈ bs, br.name = b ∧ sha ∈ bfsReach commits br.headSha)) ∧
    (∀ (repoName : String) (bs : List Branch) (commits : List Commit)
        (a : String),
      totalOf8 (aggregate8 repoName bs commits) a =
        (commits.filter (fun c => !isPRMessage c.message)).countP
          (fun c => authorKey c == a) ∧
      repoCommitsOf8 (aggregate8 repoName bs commits) a repoName =
        (commits.filter (fun c => !isPRMessage c.message)).countP
          (fun c => authorKey c == a)) := by
  refine ⟨by decide, ?_, ?_⟩
  · intro bs commits sha b hnd
    exact mem_commitBranches_union bs commits hnd sha b
  · intro repoName bs commits a
    constructor
    · rw [aggregate8, totalOf8_foldl]
      simp [totalOf8, lookupA]
    · rw [aggregate8, repoCommitsOf8_foldl]
      simp [repoCommitsOf8, lookupA]

/-- Witness for `branch_resolution_correctness` on the concrete chain. -/
theorem branch_resolution_correctness_witness :
    "feature" ∈ commitBranchesOf (branchCommitsMap chainBranches chainCommits)
        "c1" ↔
      ∃ br ∈ chainBranches, br.name = "feature" ∧
        "c1" ∈ bfsReach chainCommits br.headSha :=
  branch_resolution_correctness.2.1 chainBranches chainCommits "c1" "feature"
    (by decide)

/-! ## StatsAggregator lemmas (App.tsx variant) -/

theorem totalOfA_step (repoName : String) (bs : List Branch)
    (stats : List (String × UserStatA)) (c : Commit) (a : String) :
    totalOfA (stepA repoName bs stats c) a =
      totalOfA stats a + (if authorKey c = a then 1 else 0) := by
  by_cases ha : a = authorKey c
  · subst ha
    rw [stepA, totalOfA, lookupA_updA_self]
    cases hl : lookupA stats (authorKey c) <;> simp [totalOfA, hl]
  · rw [stepA, totalOfA, lookupA_updA_ne _ _ _ _ _ ha, totalOfA]
    rw [if_neg (fun hh => ha hh.symm)]
    omega

theorem repoStatA_commits_inner (r0 : RepoStatA) (cbs : List String)
    (dt : Option String) :
    (match dt with
      | none =>
          if cbs.isEmpty then { r0 with commits := r0.commits + 1 }
          else { commits := r0.commits + 1,
                 branches := dedupFirst (r0.branches ++ cbs),
                 commitDates := r0.commitDates }
      | some d =>
          match (if cbs.isEmpty then { r0 with commits := r0.commits + 1 }
            else { commits := r0.commits + 1,
                   branches := dedupFirst (r0.branches ++ cbs),
                   commitDates := r0.commitDates } : RepoStatA) with
          | r2 => { r2 with commitDates := updA r2.commitDates d 0 (· + 1) }).commits =
      r0.commits + 1 := by
  cases dt <;> by_cases hc : cbs.isEmpty <;> simp [hc]

theorem repoCommitsOfA_step (repoName : String) (bs : List Branch)
    (stats : List (String × UserStatA)) (c : Commit) (a r : String) :
    repoCommitsOfA (stepA repoName bs stats c) a r =
      repoCommitsOfA stats a r +
        (if authorKey c = a ∧ r = repoName then 1 else 0) := by
  by_cases ha : a = authorKey c
  · subst ha
    rw [stepA, repoCommitsOfA, lookupA_updA_self]
    by_cases hr : r = repoName
    · subst hr
      cases hl : lookupA stats (authorKey c) with
      | none =>
          cases hd : c.date <;>
            by_cases hc : (commitBranchesA bs c).isEmpty <;>
            simp [repoCommitsOfA, hl, hd, hc, lookupA_updA_self, lookupA]
      | some u =>
          cases hl2 : lookupA u.repositories r with
          | none =>
              cases hd : c.date <;>
                by_cases hc : (commitBranchesA bs c).isEmpty <;>
                simp [repoCommitsOfA, hl, hl2, hd, hc, lookupA_updA_self]
          | some r0 =>
              cases hd : c.date <;>
                by_cases hc : (commitBranchesA bs c).isEmpty <;>
                simp [repoCommitsOfA, hl, hl2, hd, hc, lookupA_updA_self]
    · cases hl : lookupA stats (authorKey c) with
      | none =>
          simp [repoCommitsOfA, hl, lookupA_updA_ne _ _ _ _ _ hr, lookupA,
            show repoName ≠ r from fun hh => hr hh.symm, hr]
      | some u =>
          simp [repoCommitsOfA, hl, lookupA_updA_ne _ _ _ _ _ hr, hr]
  · rw [stepA, repoCommitsOfA, lookupA_updA_ne _ _ _ _ _ ha, repoCommitsOfA]
    rw [if_neg (fun hh => ha hh.1.symm)]
    omega

theorem branchesOfA_step (repoName : String) (bs : List Branch)
    (stats : List (String × UserStatA)) (c : Commit) (a r b : String) :
    b ∈ branchesOfA (stepA repoName bs stats c) a r ↔
      b ∈ branchesOfA stats a r ∨
        (authorKey c = a ∧ r = repoName ∧ b ∈ commitBranchesA bs c) := by
  by_cases ha : a = authorKey c
  · subst ha
    rw [stepA, branchesOfA, lookupA_updA_self]
    by_cases hr : r = repoName
    · subst hr
      cases hl : lookupA stats (authorKey c) with
      | none =>
          cases hd : c.date <;>
            · by_cases hc : (commitBranchesA bs c).isEmpty
              · simp [branchesOfA, hl, hd, hc, lookupA_updA_self, lookupA,
                  List.isEmpty_iff.mp hc]
              · simp [branchesOfA, hl, hd, hc, lookupA_updA_self, lookupA,
                  mem_dedupFirst]
      | some u =>
          cases hl2 : lookupA u.repositories r with
          | none =>
              cases hd : c.date <;>
                · by_cases hc : (commitBranchesA bs c).isEmpty
                  · simp [branchesOfA, hl, hl2, hd, hc, lookupA_updA_self,
                      List.isEmpty_iff.mp hc]
                  · simp [branchesOfA, hl, hl2, hd, hc, lookupA_updA_self,
                      mem_dedupFirst]
          | some r0 =>
              cases hd : c.date <;>
                · by_cases hc : (commitBranchesA bs c).isEmpty
                  · simp [branchesOfA, hl, hl2, hd, hc, lookupA_updA_self,
                      List.isEmpty_iff.mp hc]
                  · simp [branchesOfA, hl, hl2, hd, hc, lookupA_updA_self,
                      mem_dedupFirst]
                    try tauto
    · have heq : ∀ v, lookupA (updA
          ((lookupA stats (authorKey c)).getD ⟨0, []⟩).repositories repoName
          ⟨0, [], []⟩ v) r = lookupA
          ((lookupA stats (authorKey c)).getD ⟨0, []⟩).repositories r :=
        fun v => lookupA_updA_ne _ _ _ _ _ hr
      cases hl : lookupA stats (authorKey c) with
      | none =>
          simp [branchesOfA, hl, lookupA_updA_ne _ _ _ _ _ hr, lookupA,
            show repoName ≠ r from fun hh => hr hh.symm, hr]
      | some u =>
          simp [branchesOfA, hl, lookupA_updA_ne _ _ _ _ _ hr, hr]
  · have heq : branchesOfA (stepA repoName bs stats c) a r =
        branchesOfA stats a r := by
      rw [stepA, branchesOfA, branchesOfA, lookupA_updA_ne _ _ _ _ _ ha]
    rw [heq]
    constructor
    · exact Or.inl
    · rintro (h | ⟨h1, _, _⟩)
      · exact h
      · exact absurd h1 (fun hh => ha hh.symm)

theorem dateCountOfA_step (repoName : String) (bs : List Branch)
    (stats : List (String × UserStatA)) (c : Commit) (a r d : String) :
    dateCountOfA (stepA repoName bs stats c) a r d =
      dateCountOfA stats a r d +
        (if authorKey c = a ∧ r = repoName ∧ c.date = some d then 1 else 0) := by
  by_cases ha : a = authorKey c
  · subst ha
    rw [stepA, dateCountOfA, lookupA_updA_self]
    by_cases hr : r = repoName
    · subst hr
      cases hl : lookupA stats (authorKey c) with
      | none =>
          cases hd : c.date with
          | none =>
              by_cases hc : (commitBranchesA bs c).isEmpty <;>
                simp [dateCountOfA, hl, hd, hc, lookupA_updA_self, lookupA]
          | some d0 =>
              by_cases hdd : d0 = d
              · subst hdd
                by_cases hc : (commitBranchesA bs c).isEmpty <;>
                  simp [dateCountOfA, hl, hd, hc, lookupA_updA_self, lookupA]
              · by_cases hc : (commitBranchesA bs c).isEmpty <;>
                  simp [dateCountOfA, hl, hd, hc, lookupA, hdd,
                    lookupA_updA_self,
                    lookupA_updA_ne _ _ _ _ _ (fun hh => hdd hh.symm)]
      | some u =>
          cases hl2 : lookupA u.repositories r with
          | none =>
              cases hd : c.date with
              | none =>
                  by_cases hc : (commitBranchesA bs c).isEmpty <;>
                    simp [dateCountOfA, hl, hl2, hd, hc, lookupA_updA_self,
                      lookupA]
              | some d0 =>
                  by_cases hdd : d0 = d
                  · subst hdd
                    by_cases hc : (commitBranchesA bs c).isEmpty <;>
                      simp [dateCountOfA, hl, hl2, hd, hc, lookupA_updA_self,
                        lookupA]
                  · by_cases hc : (commitBranchesA bs c).isEmpty <;>
                      simp [dateCountOfA, hl, hl2, hd, hc, lookupA, hdd,
                        lookupA_updA_self,
                        lookupA_updA_ne _ _ _ _ _ (fun hh => hdd hh.symm)]
          | some r0 =>
              cases hd : c.date with
              | none =>
                  by_cases hc : (commitBranchesA bs c).isEmpty <;>
                    simp [dateCountOfA, hl, hl2, hd, hc, lookupA_updA_self]
              | some d0 =>
                  by_cases hdd : d0 = d
                  · subst hdd
                    by_cases hc : (commitBranchesA bs c).isEmpty <;>
                      simp [dateCountOfA, hl, hl2, hd, hc, lookupA_updA_self]
                  · by_cases hc : (commitBranchesA bs c).isEmpty <;>
                      simp [dateCountOfA, hl, hl2, hd, hc, hdd,
                        lookupA_updA_self,
                        lookupA_updA_ne _ _ _ _ _ (fun hh => hdd hh.symm)]
    · cases hl : lookupA stats (authorKey c) with
      | none =>
          simp [dateCountOfA, hl, lookupA_updA_ne _ _ _ _ _ hr, lookupA,
            show repoName ≠ r from fun hh => hr hh.symm, hr]
      | some u =>
          simp [dateCountOfA, hl, lookupA_updA_ne _ _ _ _ _ hr, hr]
  · rw [stepA, dateCountOfA, lookupA_updA_ne _ _ _ _ _ ha, dateCountOfA]
    rw [if_neg (fun hh => ha hh.1.symm)]
    omega

theorem totalOfA_foldl (repoName : String) (bs : List Branch) (a : String) :
    ∀ (l : List Commit) (stats : List (String × UserStatA)),
    totalOfA (l.foldl (stepA repoName bs) stats) a =
      totalOfA stats a + l.countP (fun c => authorKey c == a) := by
  intro l
  induction l with
  | nil => intro stats; simp
  | cons c l ih =>
      intro stats
      simp only [List.foldl_cons, List.countP_cons]
      rw [ih, totalOfA_step]
      by_cases h : authorKey c = a
      · simp only [h, if_pos rfl, beq_self_eq_true, if_true, cond_true]
        omega
      · simp [h]

theorem repoCommitsOfA_foldl (repoName : String) (bs : List Branch)
    (a r : String) :
    ∀ (l : List Commit) (stats : List (String × UserStatA)),
    repoCommitsOfA (l.foldl (stepA repoName bs) stats) a r =
      repoCommitsOfA stats a r +
        l.countP (fun c => authorKey c == a && r == repoName) := by
  intro l
  induction l with
  | nil => intro stats; simp
  | cons c l ih =>
      intro stats
      simp only [List.foldl_cons, List.countP_cons]
      rw [ih, repoCommitsOfA_step]
      by_cases h1 : authorKey c = a <;> by_cases h2 : r = repoName <;>
        · simp [h1, h2]
          try omega

theorem branchesOfA_foldl (repoName : String) (bs : List Branch)
    (a r b : String) :
    ∀ (l : List Commit) (stats : List (String × UserStatA)),
    (b ∈ branchesOfA (l.foldl (stepA repoName bs) stats) a r ↔
      b ∈ branchesOfA stats a r ∨
        ∃ c ∈ l, authorKey c = a ∧ r = repoName ∧ b ∈ commitBranchesA bs c) := by
  intro l
  induction l with
  | nil => intro stats; simp
  | cons c l ih =>
      intro stats
      simp only [List.foldl_cons]
      rw [ih, branchesOfA_step]
      simp only [List.mem_cons]
      constructor
      · rintro ((h | h) | ⟨c', hc', hh⟩)
        · exact .inl h
        · exact .inr ⟨c, .inl rfl, h⟩
        · exact .inr ⟨c', .inr hc', hh⟩
      · rintro (h | ⟨c', hc' | hc', hh⟩)
        · exact .inl (.inl h)
        · exact .inl (.inr (hc' ▸ hh))
        · exact .inr ⟨c', hc', hh⟩

theorem dateCountOfA_foldl (repoName : String) (bs : List Branch)
    (a r d : String) :
    ∀ (l : List Commit) (stats : List (String × UserStatA)),
    dateCountOfA (l.foldl (stepA repoName bs) stats) a r d =
      dateCountOfA stats a r d +
        l.countP (fun c =>
          authorKey c == a && r == repoName && c.date == some d) := by
  intro l
  induction l with
  | nil => intro stats; simp
  | cons c l ih =>
      intro stats
      simp only [List.foldl_cons, List.countP_cons]
      rw [ih, dateCountOfA_step]
      by_cases h1 : authorKey c = a <;> by_cases h2 : r = repoName <;>
        by_cases h3 : c.date = some d <;>
        · simp [h1, h2, h3]
          try omega

/-- C7 amended: aggregation is order-independent up to the observable
counters: permuting the commit list preserves every author's total, every
per-repository commit count, the per-repository branch set (as a set),
and the per-repository date histogram (as a date-to-count map). The raw
JS output arrays (`branches`, `commitDates`) are insertion-ordered, so
full deep equality fails under permutation (see the counterexample). -/
theorem aggregation_commutativity (repoName : String) (bs : List Branch)
    (l l' : List Commit) (hp : l.Perm l') (a r b d : String) :
    totalOfA (aggregateA repoName bs l) a =
      totalOfA (aggregateA repoName bs l') a ∧
    repoCommitsOfA (aggregateA repoName bs l) a r =
      repoCommitsOfA (aggregateA repoName bs l') a r ∧
    (b ∈ branchesOfA (aggregateA repoName bs l) a r ↔
      b ∈ branchesOfA (aggregateA repoName bs l') a r) ∧
    dateCountOfA (aggregateA repoName bs l) a r d =
      dateCountOfA (aggregateA repoName bs l') a r d := by
  refine ⟨?_, ?_, ?_, ?_⟩
  · rw [aggregateA, aggregateA, totalOfA_foldl, totalOfA_foldl,
      hp.countP_eq]
  · rw [aggregateA, aggregateA, repoCommitsOfA_foldl, repoCommitsOfA_foldl,
      hp.countP_eq]
  · rw [aggregateA, aggregateA, branchesOfA_foldl, branchesOfA_foldl]
    constructor
    · rintro (h | ⟨c, hc, hh⟩)
      · exact .inl h
      · exact .inr ⟨c, hp.mem_iff.mp hc, hh⟩
    · rintro (h | ⟨c, hc, hh⟩)
      · exact .inl h
      · exact .inr ⟨c, hp.mem_iff.mpr hc, hh⟩
  · rw [aggregateA, aggregateA, dateCountOfA_foldl, dateCountOfA_foldl,
      hp.countP_eq]

/-- C7 counterexample: two commits by the same author whose head shas
match different branches and whose dates differ. Swapping them permutes
the `branches` and `commitDates` arrays, so the two aggregation results
are not deep-equal, refuting "produces a deep-equal UserStats mapping". -/
theorem aggregation_commutativity_cex :
    (([⟨"s2", some "a", "A", "", "m2", [], some "2024-01-02"⟩,
        ⟨"s1", some "a", "A", "", "m1", [], some "2024-01-01"⟩] :
        List Commit).Perm
      [⟨"s1", some "a", "A", "", "m1", [], some "2024-01-01"⟩,
        ⟨"s2", some "a", "A", "", "m2", [], some "2024-01-02"⟩]) ∧
    aggregateA "r" [⟨"main", "s1"⟩, ⟨"dev", "s2"⟩]
        [⟨"s1", some "a", "A", "", "m1", [], some "2024-01-01"⟩,
          ⟨"s2", some "a", "A", "", "m2", [], some "2024-01-02"⟩] ≠
      aggregateA "r" [⟨"main", "s1"⟩, ⟨"dev", "s2"⟩]
        [⟨"s2", some "a", "A", "", "m2", [], some "2024-01-02"⟩,
          ⟨"s1", some "a", "A", "", "m1", [], some "2024-01-01"⟩] := by
  exact ⟨List.Perm.swap _ _ _, by decide⟩

/-- Witness for `aggregation_commutativity` on the swapped two-commit
list. -/
theorem aggregation_commutativity_witness :
    totalOfA (aggregateA "r" [⟨"main", "s1"⟩, ⟨"dev", "s2"⟩]
        [⟨"s1", some "a", "A", "", "m1", [], some "2024-01-01"⟩,
          ⟨"s2", some "a", "A", "", "m2", [], some "2024-01-02"⟩]) "a" =
      totalOfA (aggregateA "r" [⟨"main", "s1"⟩, ⟨"dev", "s2"⟩]
        [⟨"s2", some "a", "A", "", "m2", [], some "2024-01-02"⟩,
          ⟨"s1", some "a", "A", "", "m1", [], some "2024-01-01"⟩]) "a" ∧
    ("main" ∈ branchesOfA (aggregateA "r" [⟨"main", "s1"⟩, ⟨"dev", "s2"⟩]
        [⟨"s1", some "a", "A", "", "m1", [], some "2024-01-01"⟩,
          ⟨"s2", some "a", "A", "", "m2", [], some "2024-01-02"⟩]) "a" "r" ↔
      "main" ∈ branchesOfA (aggregateA "r" [⟨"main", "s1"⟩, ⟨"dev", "s2"⟩]
        [⟨"s2", some "a", "A", "", "m2", [], some "2024-01-02"⟩,
          ⟨"s1", some "a", "A", "", "m1", [], some "2024-01-01"⟩]) "a" "r") := by
  have h := aggregation_commutativity "r" [⟨"main", "s1"⟩, ⟨"dev", "s2"⟩]
    [⟨"s1", some "a", "A", "", "m1", [], some "2024-01-01"⟩,
      ⟨"s2", some "a", "A", "", "m2", [], some "2024-01-02"⟩]
    [⟨"s2", some "a", "A", "", "m2", [], some "2024-01-02"⟩,
      ⟨"s1", some "a", "A", "", "m1", [], some "2024-01-01"⟩]
    (List.Perm.swap _ _ _) "a" "r" "main" "2024-01-01"
  exact ⟨h.1, h.2.2.1⟩

/-! ## OrgSyncState watermark (C8) -/

/-- C8 amended: the watermark stored by the commit-caching path never
regresses and is created on the first successful post; `cacheOrgData`
uses the watermark as the `since` bound when present and the fixed
look-back window otherwise; but the dedicated
`POST /api/cache/last-commit-date/:org` endpoint overwrites
unconditionally (it can regress the watermark), and the value written by
the commit-caching path is the sync window's `until` bound — the posted
commits' own timestamps are never consulted. -/
theorem watermark_policy :
    (∀ (st : List (String × Nat)) (repo : String) (ds : List Nat)
        (u : Option Nat) (org : String) (w w' : Nat),
      lookupA st org = some w →
      lookupA (postCommitsWatermark st repo ds u) org = some w' → w ≤ w') ∧
    (∀ (st : List (String × Nat)) (repo : String) (ds : List Nat) (u : Nat),
      lookupA st (orgOf repo) = none →
      lookupA (postCommitsWatermark st repo ds (some u)) (orgOf repo) =
        some u) ∧
    (∀ (endDate w : Nat),
      startDateFor endDate (some w) = w ∧
      startDateFor endDate none = endDate - CACHE_PERIOD_DAYS * msPerDay) ∧
    (∀ (st : List (String × Nat)) (org : String) (dt : Nat),
      lookupA (setLastCommitDate st org dt) org = some dt) ∧
    (∀ (st : List (String × Nat)) (repo : String) (ds ds' : List Nat)
        (u : Option Nat),
      postCommitsWatermark st repo ds u = postCommitsWatermark st repo ds' u) := by
  refine ⟨?_, ?_, ?_, ?_, ?_⟩
  · intro st repo ds u org w w' h1 h2
    cases u with
    | none =>
        rw [postCommitsWatermark] at h2
        rw [h1] at h2
        injection h2 with h2
        omega
    | some uu =>
        rw [postCommitsWatermark] at h2
        by_cases ho : org = orgOf repo
        · subst ho
          rw [h1] at h2
          simp only [] at h2
          by_cases hgt : uu > w
          · rw [if_pos hgt, lookupA_setA_self] at h2
            injection h2 with h2
            omega
          · rw [if_neg hgt, h1] at h2
            injection h2 with h2
            omega
        · cases hlo : lookupA st (orgOf repo) with
          | none =>
              rw [hlo] at h2
              simp only [] at h2
              rw [lookupA_setA_ne _ _ _ _ ho, h1] at h2
              injection h2 with h2
              omega
          | some cur =>
              rw [hlo] at h2
              simp only [] at h2
              by_cases hgt : uu > cur
              · rw [if_pos hgt, lookupA_setA_ne _ _ _ _ ho, h1] at h2
                injection h2 with h2
                omega
              · rw [if_neg hgt, h1] at h2
                injection h2 with h2
                omega
  · intro st repo ds u h
    rw [postCommitsWatermark]
    rw [h]
    exact lookupA_setA_self _ _ _
  · intro endDate w
    exact ⟨rfl, rfl⟩
  · intro st org dt
    exact lookupA_setA_self _ _ _
  · intro st repo ds ds' u
    cases u <;> rfl

/-- C8 counterexample: (a) the dedicated last-commit-date endpoint
overwrites unconditionally, regressing the stored watermark from 100 to
50; (b) the commit-caching path records the window's `until` bound (200),
not the latest observed commit timestamp (100). -/
theorem watermark_policy_cex :
    (lookupA (setLastCommitDate [("o", 100)] "o" 50) "o" = some 50 ∧
      (50 : Nat) < 100) ∧
    (lookupA (postCommitsWatermark [] "o/r" [100] (some 200)) "o" =
        some 200 ∧
      (200 : Nat) ≠ 100) := by
  exact ⟨⟨by decide, by decide⟩, ⟨by decide, by decide⟩⟩

/-- Witness for `watermark_policy` monotonicity and creation at concrete
states. -/
theorem watermark_policy_witness :
    (100 : Nat) ≤ 150 ∧
    lookupA (postCommitsWatermark [] "o/r" [] (some 150)) (orgOf "o/r") =
      some 150 := by
  have h := watermark_policy
  constructor
  · exact h.1 [("o", 100)] "o/r" [] (some 150) "o" 100 150 (by decide)
      (by decide)
  · exact h.2.1 [] "o/r" [] 150 (by decide)

/-! ## SyncOrchestrator per-repository isolation (C9) -/

theorem runSyncAux_eq_map (env : SyncEnv) :
    ∀ (fuel : Nat) (repos : List String), repos.length ≤ fuel →
    runSyncAux env fuel repos = repos.map (processRepo env) := by
  intro fuel
  induction fuel with
  | zero =>
      intro repos h
      rw [List.eq_nil_of_length_eq_zero (Nat.le_zero.mp h)]
      rfl
  | succ n ih =>
      intro repos h
      rw [runSyncAux]
      by_cases he : repos.isEmpty
      · rw [if_pos he, List.isEmpty_iff.mp he]
        rfl
      · rw [if_neg he, ih (repos.drop 5) (by
          have hlen : (repos.drop 5).length = repos.length - 5 :=
            List.length_drop _ _
          have hpos : repos.length ≠ 0 :=
            fun hh => he (List.isEmpty_iff.mpr (List.eq_nil_of_length_eq_zero hh))
          omega)]
        rw [← List.map_append, List.take_append_drop]

theorem fetchAllRepoCommitsModel_congr (env env' : SyncEnv) (r : String)
    (h1 : env.branchesFor r = env'.branchesFor r)
    (h2 : ∀ bn, env.commitsFor r bn = env'.commitsFor r bn) :
    fetchAllRepoCommitsModel env r = fetchAllRepoCommitsModel env' r := by
  rw [fetchAllRepoCommitsModel, fetchAllRepoCommitsModel, h1]
  cases env'.branchesFor r with
  | error e => rfl
  | ok bs =>
      simp only [Prod.mk.injEq, and_true]
      congr 1
      simp only [fetchBranchCommitsModel, h2]

/-- C9: the batch loop always completes with one outcome per repository
(no exception escapes the per-repository boundary); the outcome at each
position is exactly the per-repository computation; a repository whose
branch listing fails, or all of whose branch commit fetches fail,
contributes zero commits; and a repository's outcome depends only on its
own resources, so failures elsewhere cannot perturb it. -/
theorem sync_partial_failure_isolation :
    (∀ (env : SyncEnv) (repos : List String),
      (runSync env repos).length = repos.length) ∧
    (∀ (env : SyncEnv) (repos : List String) (i : Nat) (r : String),
      repos.get? i = some r →
      (runSync env repos).get? i = some (processRepo env r)) ∧
    (∀ (env : SyncEnv) (r e : String),
      env.branchesFor r = .error e → processRepo env r = .ok 0) ∧
    (∀ (env : SyncEnv) (r : String) (bs : List Branch),
      env.branchesFor r = .ok bs →
      (∀ b ∈ bs, ∃ e, env.commitsFor r b.name = Except.error e) →
      processRepo env r = .ok 0) ∧
    (∀ (env env' : SyncEnv) (r : String),
      env.branchesFor r = env'.branchesFor r →
      (∀ bn, env.commitsFor r bn = env'.commitsFor r bn) →
      env.postOk r = env'.postOk r →
      processRepo env r = processRepo env' r) := by
  refine ⟨?_, ?_, ?_, ?_, ?_⟩
  · intro env repos
    rw [runSync, runSyncAux_eq_map env _ _ (by omega), List.length_map]
  · intro env repos i r h
    rw [runSync, runSyncAux_eq_map env _ _ (by omega), List.get?_map, h]
    rfl
  · intro env r e h
    simp [processRepo, fetchAllRepoCommitsModel, h]
  · intro env r bs h hall
    have hnil : ((bs.map fun b =>
        match fetchBranchCommitsModel env r b with
        | .error _ => []
        | .ok l => l) : List (List Commit)).flatten = [] := by
      rw [List.flatten_eq_nil_iff]
      intro x hx
      obtain ⟨b, hb, hbx⟩ := List.mem_map.mp hx
      obtain ⟨e, he⟩ := hall b hb
      rw [← hbx, fetchBranchCommitsModel, he]
    simp [processRepo, fetchAllRepoCommitsModel, h, hnil]
  · intro env env' r h1 h2 h3
    rw [processRepo, processRepo, fetchAllRepoCommitsModel_congr env env' r h1 h2,
      h3]

/-- Witness for `sync_partial_failure_isolation`: a two-repository run
where all commit fetches fail; both outcomes exist and the failing repo
contributes zero. -/
theorem sync_partial_failure_isolation_witness :
    (runSync ⟨fun _ => .ok [⟨"main", "s"⟩], fun _ _ => .error "boom",
        fun _ => true⟩ ["r1", "r2"]).get? 0 =
      some (processRepo ⟨fun _ => .ok [⟨"main", "s"⟩],
        fun _ _ => .error "boom", fun _ => true⟩ "r1") ∧
    processRepo ⟨fun _ => .ok [⟨"main", "s"⟩], fun _ _ => .error "boom",
        fun _ => true⟩ "r1" = .ok 0 := by
  have h := sync_partial_failure_isolation
  constructor
  · exact h.2.1 _ ["r1", "r2"] 0 "r1" rfl
  · exact h.2.2.2.1 _ "r1" [⟨"main", "s"⟩] rfl
      (fun b _ => ⟨"boom", rfl⟩)

end CommitAnalyser
